import Mathlib

/-!
Verification of the ocodex orchestrator core (crate `ocodex-orchestrator`)
against its specification.  The Rust sources are shallowly embedded:

* `serde_json::Value` becomes the inductive `Json` (numbers as `Int`,
  objects as association lists — serde's default map is a `BTreeMap`, so
  key order is irrelevant to the code; all object-level statements below
  are phrased through `alookup`).
* `HashMap`/`HashSet` become insertion-ordered association lists / lists.
  Rust's hash containers iterate in an unspecified order; the embedding
  fixes insertion order as one admissible refinement and every theorem
  that depends on iteration order says so in its comment.
* `f64` weights become `Rat`; the `as i64` cast becomes truncation.
* String comparison is character-wise lexicographic (`strLeb` below),
  which agrees with Rust's byte-wise `Ord` on UTF-8 strings.
-/

namespace Ocodex

/-! ### String order (executable, kernel-reducible) -/

/-- Strict lexicographic order on character lists, by code point. -/
def charsLtb : List Char → List Char → Bool
  | [], [] => false
  | [], _ :: _ => true
  | _ :: _, [] => false
  | a :: as, b :: bs =>
      if a.toNat < b.toNat then true
      else if b.toNat < a.toNat then false
      else charsLtb as bs

/-- `a < b` on strings, as Rust's `Ord` for `String` (lexicographic). -/
def strLtb (a b : String) : Bool := charsLtb a.data b.data

/-- `a ≤ b` on strings. -/
def strLeb (a b : String) : Bool := !(strLtb b a)

theorem charsLtb_irrefl (a : List Char) : charsLtb a a = false := by
  induction a with
  | nil => rfl
  | cons c cs ih => simp [charsLtb, ih]

theorem charsLtb_asymm (a b : List Char) :
    charsLtb a b = true → charsLtb b a = false := by
  induction a generalizing b with
  | nil => cases b <;> simp [charsLtb]
  | cons x xs ih =>
      cases b with
      | nil => simp [charsLtb]
      | cons y ys =>
          simp only [charsLtb]
          by_cases hxy : x.toNat < y.toNat
          · intro _
            have h1 : ¬ y.toNat < x.toNat := by omega
            simp only [if_neg h1, if_pos hxy]
          · simp only [if_neg hxy]
            by_cases hyx : y.toNat < x.toNat
            · simp [hyx]
            · simp only [if_neg hyx]
              intro h
              exact ih ys h

theorem charsLtb_trans (a b c : List Char) :
    charsLtb a b = true → charsLtb b c = true → charsLtb a c = true := by
  induction a generalizing b c with
  | nil =>
      cases b <;> cases c <;> simp [charsLtb]
  | cons x xs ih =>
      cases b with
      | nil => simp [charsLtb]
      | cons y ys =>
          cases c with
          | nil => simp [charsLtb]
          | cons z zs =>
              simp only [charsLtb]
              intro h1 h2
              by_cases hxy : x.toNat < y.toNat
              · by_cases hyz : y.toNat < z.toNat
                · have : x.toNat < z.toNat := by omega
                  simp [this]
                · rw [if_neg hyz] at h2
                  by_cases hzy : z.toNat < y.toNat
                  · rw [if_pos hzy] at h2; cases h2
                  · have : x.toNat < z.toNat := by omega
                    simp [this]
              · rw [if_neg hxy] at h1
                by_cases hyx : y.toNat < x.toNat
                · rw [if_pos hyx] at h1; cases h1
                · rw [if_neg hyx] at h1
                  by_cases hyz : y.toNat < z.toNat
                  · have : x.toNat < z.toNat := by omega
                    simp [this]
                  · rw [if_neg hyz] at h2
                    by_cases hzy : z.toNat < y.toNat
                    · rw [if_pos hzy] at h2; cases h2
                    · rw [if_neg hzy] at h2
                      have hxz : ¬ x.toNat < z.toNat := by omega
                      have hzx : ¬ z.toNat < x.toNat := by omega
                      simp only [if_neg hxz, if_neg hzx]
                      exact ih ys zs h1 h2

theorem charsLtb_conn (a b : List Char) :
    charsLtb a b = false → charsLtb b a = false → a = b := by
  induction a generalizing b with
  | nil => cases b <;> simp [charsLtb]
  | cons x xs ih =>
      cases b with
      | nil => simp [charsLtb]
      | cons y ys =>
          simp only [charsLtb]
          intro h1 h2
          by_cases hxy : x.toNat < y.toNat
          · rw [if_pos hxy] at h1; cases h1
          · by_cases hyx : y.toNat < x.toNat
            · rw [if_pos hyx] at h2; cases h2
            · rw [if_neg hxy, if_neg hyx] at h1
              rw [if_neg hyx, if_neg hxy] at h2
              have htl := ih ys h1 h2
              have hhd : x = y := by
                have hn : x.toNat = y.toNat := by omega
                exact Char.eq_of_val_eq (UInt32.ext hn)
              rw [hhd, htl]

theorem strLeb_total (a b : String) : strLeb a b = true ∨ strLeb b a = true := by
  by_cases h : charsLtb b.data a.data = true
  · right
    have := charsLtb_asymm _ _ h
    simp [strLeb, strLtb, this]
  · left; simp [strLeb, strLtb]; simpa using h

theorem strLeb_trans (a b c : String) :
    strLeb a b = true → strLeb b c = true → strLeb a c = true := by
  simp only [strLeb, strLtb, Bool.not_eq_true']
  intro hba hcb
  by_cases h : charsLtb c.data a.data = true
  · by_cases h2 : charsLtb a.data b.data = true
    · have := charsLtb_trans _ _ _ h h2
      rw [this] at hcb; cases hcb
    · have hab : a.data = b.data := charsLtb_conn _ _ (by simpa using h2) hba
      rw [← hab] at hcb
      rw [hcb] at h; cases h
  · simpa using h

/-! ### Association-list helpers (model of `HashMap<String, α>`) -/

/-- Lookup by key (first match). -/
def alookup (k : String) : List (String × α) → Option α
  | [] => none
  | (k0, v) :: rest => if k0 = k then some v else alookup k rest

/-- Replace the value at the first entry whose key is `k` (no-op if absent). -/
def aset (k : String) (v : α) : List (String × α) → List (String × α)
  | [] => []
  | (k0, v0) :: rest =>
      if k0 = k then (k0, v) :: rest else (k0, v0) :: aset k v rest

/-- Remove the first entry with key `k`, returning its value and the rest of
the list with all other entries in place (model of `HashMap::remove`). -/
def aremove (k : String) : List (String × α) → Option (α × List (String × α))
  | [] => none
  | (k0, v0) :: rest =>
      if k0 = k then some (v0, rest)
      else match aremove k rest with
        | some (v, rest2) => some (v, (k0, v0) :: rest2)
        | none => none

/-- `entry(k).or_insert(d)`: add `(k, d)` at the end if `k` is absent. -/
def aensure (k : String) (d : α) (l : List (String × α)) : List (String × α) :=
  match alookup k l with
  | some _ => l
  | none => l ++ [(k, d)]

/-- `*entry(k).or_insert(0) += 1` on a counter map. -/
def abump (k : String) : List (String × Nat) → List (String × Nat)
  | [] => [(k, 1)]
  | (k0, v0) :: rest =>
      if k0 = k then (k0, v0 + 1) :: rest else (k0, v0) :: abump k rest

/-- `entry(k).or_default().push(x)` on a map of lists. -/
def apush (k : String) (x : β) : List (String × List β) → List (String × List β)
  | [] => [(k, [x])]
  | (k0, v0) :: rest =>
      if k0 = k then (k0, v0 ++ [x]) :: rest else (k0, v0) :: apush k x rest

theorem alookup_aset_self (k : String) (v : α) (l : List (String × α)) :
    (alookup k l).isSome → alookup k (aset k v l) = some v := by
  induction l with
  | nil => simp [alookup]
  | cons p rest ih =>
      obtain ⟨k0, v0⟩ := p
      by_cases h : k0 = k
      · simp [alookup, aset, h]
      · simp only [alookup, aset, if_neg h]
        exact ih

theorem alookup_aset_other (k k2 : String) (v : α) (l : List (String × α))
    (hne : k2 ≠ k) : alookup k2 (aset k v l) = alookup k2 l := by
  induction l with
  | nil => simp [aset]
  | cons p rest ih =>
      obtain ⟨k0, v0⟩ := p
      by_cases h : k0 = k
      · subst h; simp [aset, alookup, hne, Ne.symm hne]
      · simp [aset, alookup, h, ih]

theorem aset_absent (k : String) (v : α) (l : List (String × α))
    (h : alookup k l = none) : aset k v l = l := by
  induction l with
  | nil => rfl
  | cons p rest ih =>
      obtain ⟨k0, v0⟩ := p
      by_cases hk : k0 = k
      · simp [alookup, hk] at h
      · simp [alookup, hk] at h
        simp [aset, hk, ih h]

theorem aremove_none (k : String) (l : List (String × α)) :
    aremove k l = none ↔ alookup k l = none := by
  induction l with
  | nil => simp [aremove, alookup]
  | cons p rest ih =>
      obtain ⟨k0, v0⟩ := p
      by_cases h : k0 = k
      · simp [aremove, alookup, h]
      · simp only [aremove, alookup, if_neg h]
        cases hr : aremove k rest with
        | none =>
            have h2 : alookup k rest = none := ih.mp hr
            simp [h2]
        | some pr =>
            obtain ⟨v1, r1⟩ := pr
            have h2 : ¬ alookup k rest = none := fun hn => by
              rw [ih.mpr hn] at hr; cases hr
            simp [h2]

theorem aremove_some (k : String) (l : List (String × α)) (v : α) (rest : List (String × α)) :
    aremove k l = some (v, rest) →
    alookup k l = some v ∧ rest.Sublist l ∧
      (∀ k2, k2 ≠ k → alookup k2 rest = alookup k2 l) := by
  induction l generalizing v rest with
  | nil => simp [aremove]
  | cons p tl ih =>
      obtain ⟨k0, v0⟩ := p
      by_cases h : k0 = k
      · simp only [aremove, if_pos h]
        intro he
        rw [Option.some.injEq, Prod.mk.injEq] at he
        obtain ⟨rfl, rfl⟩ := he
        subst h
        refine ⟨by simp [alookup], List.sublist_cons_self _ _, ?_⟩
        intro k2 hk2
        simp [alookup, Ne.symm hk2]
      · simp only [aremove, if_neg h]
        cases hr : aremove k tl with
        | none => intro he; exact absurd he (by simp)
        | some pr =>
            obtain ⟨v1, rest1⟩ := pr
            intro he
            simp only [Option.some.injEq, Prod.mk.injEq] at he
            obtain ⟨rfl, rfl⟩ := he
            obtain ⟨h1, h2, h3⟩ := ih _ _ hr
            refine ⟨by simp [alookup, h, h1], List.Sublist.cons₂ _ h2, ?_⟩
            intro k2 hk2
            by_cases hk0 : k0 = k2 <;> simp [alookup, hk0, h3 k2 hk2]

/-! ### JSON values (`serde_json::Value`) -/

/-- Model of `serde_json::Value`.  Numbers are modelled as `Int` (the
payload fields the orchestrator reads are integers via `as_i64`);
objects are association lists queried through `alookup`. -/
inductive Json where
  | null
  | bool (b : Bool)
  | num (n : Int)
  | str (s : String)
  | arr (xs : List Json)
  | obj (kvs : List (String × Json))
deriving Repr

/-- `Value::get(key)`: field of an object, `None` otherwise. -/
def Json.get (j : Json) (k : String) : Option Json :=
  match j with
  | .obj kvs => alookup k kvs
  | _ => none

/-- `Value::as_bool`. -/
def Json.asBool : Json → Option Bool
  | .bool b => some b
  | _ => none

/-- `Value::as_i64` (integral numbers only in this model). -/
def Json.asInt : Json → Option Int
  | .num n => some n
  | _ => none

/-- `Value::as_str`. -/
def Json.asStr : Json → Option String
  | .str s => some s
  | _ => none

/-- `Value::as_array`. -/
def Json.asArr : Json → Option (List Json)
  | .arr xs => some xs
  | _ => none

/-- `Value::is_null`. -/
def Json.isNull : Json → Bool
  | .null => true
  | _ => false

mutual
/-- `memory.rs::merge_json`: recursive merge of `patch` into `base`.
Objects merge key-wise; EVERY other case (arrays included) replaces the
base value with the patch value. -/
def merge_json : Json → Json → Json
  | .obj b, .obj p => .obj (mergeObjList b p)
  | _, p => p

/-- Iteration of `merge_json` over the patch object's entries. -/
def mergeObjList (b : List (String × Json)) : List (String × Json) → List (String × Json)
  | [] => b
  | (k, v) :: rest =>
      match alookup k b with
      | some old => mergeObjList (aset k (merge_json old v) b) rest
      | none => mergeObjList (b ++ [(k, v)]) rest
end

mutual
/-- `lib.rs::merge_json_values`: like `merge_json` but arrays concatenate. -/
def merge_json_values : Json → Json → Json
  | .obj b, .obj p => .obj (mergeValuesList b p)
  | .arr a, .arr p => .arr (a ++ p)
  | _, p => p

/-- Iteration of `merge_json_values` over the patch object's entries
(`b.remove(&k)` followed by `b.insert(k, nv)`; modelled as in-place update,
which is lookup-equivalent for serde's `BTreeMap`). -/
def mergeValuesList (b : List (String × Json)) : List (String × Json) → List (String × Json)
  | [] => b
  | (k, v) :: rest =>
      match alookup k b with
      | some old => mergeValuesList (aset k (merge_json_values old v) b) rest
      | none => mergeValuesList (b ++ [(k, v)]) rest
end

/-! ### Tasks and playbooks (`lib.rs`) -/

/-- `lib.rs::Task`. -/
structure Task where
  id : String
  description : String
  payload : Json
deriving Repr

/-- `lib.rs::Playbook`. -/
structure Playbook where
  name : String
  tasks : List Task
deriving Repr

/-- Dependency list read from the payload:
`payload.get("depends_on").and_then(as_array)` with non-string elements
dropped by the `filter_map`, `unwrap_or_default` otherwise. -/
def dependsOn (t : Task) : List String :=
  match (t.payload.get "depends_on").bind Json.asArr with
  | some xs => xs.filterMap Json.asStr
  | none => []

/-- `payload.get("needs_write_lock").and_then(as_bool).unwrap_or(false)`. -/
def needsWriteLock (t : Task) : Bool :=
  ((t.payload.get "needs_write_lock").bind Json.asBool).getD false

/-- `payload.get("priority").and_then(as_i64).unwrap_or(0)` (the `as i32`
truncation is not modelled; the claims never exercise integer overflow). -/
def priorityOf (t : Task) : Int :=
  ((t.payload.get "priority").bind Json.asInt).getD 0

/-! ### Topological reconciliation (`lib.rs::topo_order_with_hint`)

The Rust function stores the tasks in a `HashMap` keyed by id, computes
in-degrees and an adjacency map from `depends_on`, seeds Kahn's algorithm
with the zero-in-degree ids (kept sorted, `Vec::pop` taking the LAST,
i.e. lexically greatest, element) and finally appends whatever is left in
the `HashMap` (cycle residue).  `HashMap` iteration order is unspecified
in Rust; this embedding iterates in insertion order. -/

/-- State of the Kahn loop in `topo_order_with_hint`. -/
structure KahnState where
  byId : List (String × Task)
  indeg : List (String × Nat)
  edges : List (String × List String)
  ready : List String
  out : List Task

/-- Sort a list of ids lexically ascending (`Vec::sort`). -/
def sortIds (l : List String) : List String :=
  List.insertionSort (fun a b => strLeb a b = true) l

/-- One child notification:
`if let Some(e) = indeg.get_mut(&c) { *e = e.saturating_sub(1);
 if *e == 0 { ready.push(c); ready.sort(); } }`. -/
def notifyChild (p : List (String × Nat) × List String) (c : String) :
    List (String × Nat) × List String :=
  match alookup c p.1 with
  | none => p
  | some e =>
      let e2 := e - 1
      let indeg2 := aset c e2 p.1
      if e2 = 0 then (indeg2, sortIds (p.2 ++ [c])) else (indeg2, p.2)

/-- Body of one loop iteration after `ready.pop()` returned `id`
(the caller has already removed `id` from `ready`). -/
def kahnStep (s : KahnState) (id : String) : KahnState :=
  let emitStep : List (String × Task) × List Task :=
    match aremove id s.byId with
    | some (t, rest) => (rest, s.out ++ [t])
    | none => (s.byId, s.out)
  match aremove id s.edges with
  | some (children, edges2) =>
      let step := children.foldl notifyChild (s.indeg, s.ready)
      { byId := emitStep.1, indeg := step.1, edges := edges2,
        ready := step.2, out := emitStep.2 }
  | none =>
      { byId := emitStep.1, indeg := s.indeg, edges := s.edges,
        ready := s.ready, out := emitStep.2 }

/-- `while let Some(id) = ready.pop() { ... }`.  `Vec::pop` removes the
last element.  The loop provably performs at most `|tasks| + Σ|deps|`
iterations (each id enters `ready` at most once per incoming edge plus
once at initialisation), so running it with that much fuel is exact. -/
def kahnLoop : Nat → KahnState → KahnState
  | 0, s => s
  | fuel + 1, s =>
      match s.ready.getLast? with
      | none => s
      | some id => kahnLoop fuel (kahnStep { s with ready := s.ready.dropLast } id)

/-- Build the in-degree and adjacency maps:
for every `(id, t)` in `by_id`, `indeg.entry(id).or_insert(0)` and, per
dependency `d`, `edges.entry(d).or_default().push(id)` and
`*indeg.entry(id).or_insert(0) += 1`. -/
def buildGraph (byId : List (String × Task)) :
    List (String × Nat) × List (String × List String) :=
  byId.foldl
    (fun acc p =>
      let indeg0 := aensure p.1 0 acc.1
      (dependsOn p.2).foldl
        (fun acc2 d => (abump p.1 acc2.1, apush d p.1 acc2.2))
        (indeg0, acc.2))
    ([], [])

/-- The loop fuel: an upper bound on the number of `ready.pop()` calls. -/
def kahnFuel (tasks : List Task) : Nat :=
  tasks.length + (tasks.map (fun t => (dependsOn t).length)).sum + 1

/-- The final state of the Kahn phase of `topo_order_with_hint`. -/
def kahnFinal (tasks : List Task) : KahnState :=
  let byId := tasks.map fun t => (t.id, t)
  let graph := buildGraph byId
  let ready := sortIds ((graph.1.filter (fun kv => kv.2 = 0)).map (fun kv => kv.1))
  kahnLoop (kahnFuel tasks)
    { byId := byId, indeg := graph.1, edges := graph.2, ready := ready, out := [] }

/-- Tasks emitted by the Kahn phase, in emission order. -/
def kahnEmitted (tasks : List Task) : List Task := (kahnFinal tasks).out

/-- Tasks left in `by_id` after the loop (cycle / unresolvable residue),
in the embedding's insertion order. -/
def kahnResidue (tasks : List Task) : List Task :=
  (kahnFinal tasks).byId.map fun p => p.2

/-- `lib.rs::topo_order_with_hint`. -/
def topo_order_with_hint (tasks : List Task) : List Task :=
  kahnEmitted tasks ++ kahnResidue tasks

/-! ### QUBO instances and the classical optimiser (`qc.rs`) -/

/-- `qc.rs::QuboTask` (the fields the orchestrator core populates). -/
structure QuboTask where
  id : String
  priority : Int
  write : Bool
  depends_on : List String
deriving Repr

/-- `qc.rs::QuboHorizon`. -/
structure QuboHorizon where
  buckets : Nat
  capacity : Nat
  write_cap : Nat
deriving Repr

/-- `qc.rs::QuboWeights` (`f64` modelled as `Rat`). -/
structure QuboWeights where
  lateness : Rat
  priority : Rat
  fairness : Rat
  reorder_cost : Rat
deriving Repr

/-- `qc.rs::QuboInstance` (seed / max_iter / timeout are never read by the
embedded code paths and are omitted). -/
structure QuboInstance where
  tasks : List QuboTask
  horizon : QuboHorizon
  weights : QuboWeights
deriving Repr

/-- `qc.rs::ScheduleDelta` (advisory fields the core never reads omitted;
`confidence` is `f64`, modelled as `Rat`). -/
structure ScheduleDelta where
  order : List String
  confidence : Rat
deriving Repr

/-- State of the loop in `ClassicalOptimizer::topo_sort_with_priority`:
`deps` maps each id to its unsatisfied dependency set (a `HashSet`,
modelled as a deduplicated list), `prio` is read-only, `ready` and
`order` are vectors, `remaining` is the unprocessed id set. -/
structure ClassicalState where
  deps : List (String × List String)
  ready : List String
  order : List String
  remaining : List String

/-- Stable sort of the ready vector by descending priority
(`ready.sort_by_key(|i| -(prio.get(i).cloned().unwrap_or_default()))`;
Rust's `sort_by_key` is stable and `List.insertionSort` is stable). -/
def sortReadyByPrio (prio : List (String × Int)) (l : List String) : List String :=
  List.insertionSort
    (fun a b => ((alookup b prio).getD 0) ≤ ((alookup a prio).getD 0)) l

/-- One iteration of the classical loop: pop `ready[0]` (after the stable
sort), push it to `order`, drop it from `remaining`, remove its `deps`
entry, erase it from every remaining dependency set and enqueue ids whose
set just became empty (guarded against ids already ordered or ready). -/
def classicalStep (prio : List (String × Int)) (s : ClassicalState) : ClassicalState :=
  match sortReadyByPrio prio s.ready with
  | [] => s
  | n :: readyRest =>
      let order2 := s.order ++ [n]
      let remaining2 := s.remaining.filter (fun x => x ≠ n)
      let depsWithoutN :=
        match aremove n s.deps with
        | some pr => pr.2
        | none => s.deps
      let stepped := depsWithoutN.foldl
        (fun (acc : List (String × List String) × List String) kv =>
          let v2 := kv.2.filter (fun x => x ≠ n)
          let ready2 :=
            if v2.isEmpty ∧ ¬ order2.contains kv.1 ∧ ¬ acc.2.contains kv.1 then
              acc.2 ++ [kv.1]
            else acc.2
          (acc.1 ++ [(kv.1, v2)], ready2))
        ([], readyRest)
      { deps := stepped.1, ready := stepped.2, order := order2, remaining := remaining2 }

/-- `while !ready.is_empty()` — each id enters `ready` at most once
(ids in `order` or already in `ready` are never re-pushed), so
`|tasks| + 1` fuel is exact. -/
def classicalLoop (prio : List (String × Int)) : Nat → ClassicalState → ClassicalState
  | 0, s => s
  | fuel + 1, s =>
      if s.ready.isEmpty then s
      else classicalLoop prio fuel (classicalStep prio s)

/-- `qc.rs::ClassicalOptimizer::topo_sort_with_priority`.  `HashMap` and
`HashSet` iteration is modelled as insertion order (see header note): the
initial `ready` list and the cycle-residue append both inherit the
instance's task order. -/
def topo_sort_with_priority (inst : QuboInstance) : List String :=
  let deps := inst.tasks.map fun t => (t.id, t.depends_on.dedup)
  let prio := inst.tasks.map fun t => (t.id, t.priority)
  let ready := (deps.filter (fun kv => kv.2.isEmpty)).map fun kv => kv.1
  let final := classicalLoop prio (inst.tasks.length + 1)
    { deps := deps, ready := ready, order := [], remaining := deps.map fun kv => kv.1 }
  final.order ++ final.remaining

/-- `qc.rs::<ClassicalOptimizer as QuantumOptimizer>::optimize`. -/
def classicalOptimize (inst : QuboInstance) : Except String ScheduleDelta :=
  .ok { order := topo_sort_with_priority inst, confidence := 1 / 2 }

/-! ### A/B comparison (`ab.rs`) -/

/-- `f64 as i64`: truncation toward zero (saturation is immaterial at the
magnitudes the code uses). -/
def f64toI64 (q : Rat) : Int := Rat.floor q |> fun f => if q < 0 then Rat.ceil q else f

/-- Split a list into consecutive chunks of size `n` (`slice::chunks`);
`n` is at least 1 at every call site (`capacity.max(1)`). -/
def chunksOf : Nat → List α → List (List α)
  | _, [] => []
  | n, x :: rest =>
      if _h : n = 0 then [x :: rest]
      else (x :: rest).take n :: chunksOf n ((x :: rest).drop n)
  termination_by _ l => l.length
  decreasing_by
    simp only [List.length_drop, List.length_cons]
    omega

/-- `ab.rs::cost_order`.  The `prio`/`write` maps are `HashMap`s built by
insertion (later duplicate ids overwrite), hence the reversed lookup. -/
def cost_order (inst : QuboInstance) (order : List String) : Int :=
  let prioOf := fun id => ((alookup id (inst.tasks.reverse.map fun t => (t.id, t.priority))).getD 0)
  let writeOf := fun id => ((alookup id (inst.tasks.reverse.map fun t => (t.id, t.write))).getD false)
  let base := (order.enum.map fun p =>
    (p.1 : Int) * f64toI64 inst.weights.lateness - prioOf p.2 * f64toI64 inst.weights.priority).sum
  let cap := max inst.horizon.capacity 1
  let writeExcess := (chunksOf cap order).map fun chunk =>
    let writes := (chunk.filter (fun id => writeOf id)).length
    if writes > inst.horizon.write_cap then ((writes - inst.horizon.write_cap) * 10 : Int) else 0
  base + writeExcess.sum

/-- `ab.rs::AbResult` (the `qc_delta` passthrough field is omitted). -/
structure AbResult where
  classical_cost : Int
  qc_cost : Int
  winner : String

/-- An optimiser is a function in this embedding
(`&dyn QuantumOptimizer`). -/
def Optimizer : Type := QuboInstance → Except String ScheduleDelta

/-- The fallback delta used whenever an optimiser errors: the instance's
own task order with confidence 0. -/
def identityDelta (inst : QuboInstance) : ScheduleDelta :=
  { order := inst.tasks.map fun t => t.id, confidence := 0 }

/-- `ab.rs::compare`. -/
def compare (classical qc : Optimizer) (inst : QuboInstance) : AbResult :=
  let base := match classical inst with
    | .ok d => d
    | .error _ => identityDelta inst
  let qd := match qc inst with
    | .ok d => d
    | .error _ => base
  let cc := cost_order inst base.order
  let qcc := cost_order inst qd.order
  let winner := if qcc < cc then "qc" else if cc < qcc then "classical" else "tie"
  { classical_cost := cc, qc_cost := qcc, winner := winner }

/-! ### Task queue (`queue.rs::InMemoryTaskQueue::pop_eligible`) -/

/-- `pop_eligible(writes_in_flight)`: scan the deque front to back, skip
tasks needing the write lock while writes are in flight, remove and
return the first eligible task together with its flag; `None` when no
task is eligible.  Returns the remaining queue as well (the Rust method
mutates the deque in place). -/
def pop_eligible : List Task → Nat → Option ((Task × Bool) × List Task)
  | [], _ => none
  | t :: rest, wif =>
      let needs := needsWriteLock t
      if needs ∧ wif > 0 then
        (pop_eligible rest wif).map fun pr => (pr.1, t :: pr.2)
      else
        some ((t, needs), rest)

/-! ### Memory service (`memory.rs`) -/

/-- `memory.rs::TodoItem`. -/
structure TodoItem where
  title : String
  status : String
  assignee : Option String
  priority : Option String
  notes : List String
deriving Repr

/-- `memory.rs::MemorySnapshot`. -/
structure MemorySnapshot where
  state : Json
  todo : List TodoItem
deriving Repr

/-- `memory.rs::MemoryDelta`. -/
structure MemoryDelta where
  state_patch : Json
  todo_add : List TodoItem
  todo_update : List (String × String)
deriving Repr

/-- `guard.todo.iter_mut().find(|t| &t.title == title)` followed by a
status write: only the FIRST matching item changes. -/
def updateTodoStatus (title newStatus : String) : List TodoItem → List TodoItem
  | [] => []
  | t :: rest =>
      if t.title = title then { t with status := newStatus } :: rest
      else t :: updateTodoStatus title newStatus rest

/-- `memory.rs::InMemoryMemoryService::merge` (the snapshot under the
mutex, transformed purely). -/
def memMerge (snap : MemorySnapshot) (delta : MemoryDelta) : MemorySnapshot :=
  let state :=
    if delta.state_patch.isNull then snap.state
    else merge_json (if snap.state.isNull then Json.obj [] else snap.state) delta.state_patch
  let todo0 := snap.todo ++ delta.todo_add
  let todo := delta.todo_update.foldl (fun acc p => updateTodoStatus p.1 p.2 acc) todo0
  { state := state, todo := todo }

/-! ### Events, policy, runner and the delegation pipeline (`lib.rs`,
`events.rs`, `policy.rs`, `scheduler.rs`)

The runner's I/O effects (event publication, memory merges) are modelled
by explicit state passing; filesystem persistence, metrics and the bandit
router are best-effort side channels no claim touches and are noted but
not threaded (the worker is modelled as one function `Task → Except`,
standing for the router's chosen worker). -/

/-- `events.rs::EventKind`. -/
inductive EventKind where
  | info
  | warn
  | error
  | progress
deriving Repr, DecidableEq

/-- `events.rs::Event` (envelope fields other than `task_id` default to
`None` on every event the embedded paths publish and are omitted). -/
structure Event where
  kind : EventKind
  message : String
  task_id : Option String
deriving Repr, DecidableEq

/-- `policy.rs::NoopExecutionPolicy::before_task`: publishes one Info
event and succeeds. -/
def noopBeforeTask (t : Task) : List Event × Except String Unit :=
  ([{ kind := .info, message := "policy:before:" ++ t.id, task_id := none }], .ok ())

/-- `policy.rs::NoopExecutionPolicy::after_task`. -/
def noopAfterTask (t : Task) : List Event × Except String Unit :=
  ([{ kind := .info, message := "policy:after:" ++ t.id, task_id := none }], .ok ())

/-- A policy hook in this embedding: events it publishes plus its result. -/
def PolicyHook : Type := Task → List Event × Except String Unit

/-- A worker in this embedding: the JSON result of `TaskWorker::run` for
the worker the router selects (routing itself is not claim-relevant). -/
def Worker : Type := Task → Except String Json

/-- The state-patch a completed task merges into shared memory:
`json!({"last_result": result})`, deep-merged (`merge_json_values`, the
array-concatenating variant) with the worker result's `memory_update`
field when present. -/
def lastResultPatch (result : Json) : Json :=
  let patch := Json.obj [("last_result", result)]
  match result.get "memory_update" with
  | some mu => merge_json_values patch mu
  | none => patch

/-- `lib.rs::LocalRunner::run_one`, as a pure transition on
`(events, memory)`.  Persistence to disk, metrics and the bandit
observation are effects outside the model.  The event publication order
is exactly the source order: cancel-warn; task:start; policy before;
worker; memory merge; policy after; task:done. -/
def run_one (canceled : Bool) (before after : PolicyHook) (worker : Worker)
    (mem : MemorySnapshot) (t : Task) :
    List Event × MemorySnapshot × Except String Unit :=
  if canceled then
    ([{ kind := .warn, message := "canceled", task_id := none }], mem, .ok ())
  else
    let startEv : Event :=
      { kind := .progress, message := "task:start:" ++ t.id, task_id := some t.id }
    let b := before t
    match b.2 with
    | .error e => ([startEv] ++ b.1, mem, .error e)
    | .ok _ =>
        match worker t with
        | .error e => ([startEv] ++ b.1, mem, .error e)
        | .ok result =>
            let delta : MemoryDelta :=
              { state_patch := lastResultPatch result, todo_add := [], todo_update := [] }
            let mem2 := memMerge mem delta
            let a := after t
            match a.2 with
            | .error e => ([startEv] ++ b.1 ++ a.1, mem2, .error e)
            | .ok _ =>
                let doneEv : Event :=
                  { kind := .progress, message := "task:done", task_id := some t.id }
                ([startEv] ++ b.1 ++ a.1 ++ [doneEv], mem2, .ok ())

/-- `scheduler.rs::InProcessScheduler::run`: sequential fold over the
ordered tasks, aborting on the first runner error. -/
def schedulerRun (canceled : Bool) (before after : PolicyHook) (worker : Worker) :
    List Task → MemorySnapshot → List Event × MemorySnapshot × Except String Unit
  | [], mem => ([], mem, .ok ())
  | t :: rest, mem =>
      let r := run_one canceled before after worker mem t
      match r.2.2 with
      | .error e => (r.1, r.2.1, .error e)
      | .ok _ =>
          let rec2 := schedulerRun canceled before after worker rest r.2.1
          (r.1 ++ rec2.1, rec2.2.1, rec2.2.2)

/-- The reduced instance `execute_with_delegation` hands to the optimiser:
priorities and write flags from payloads, but `depends_on` always empty. -/
def buildInstance (maxConcurrency : Nat) (tasks : List Task) : QuboInstance :=
  { tasks := tasks.map fun t =>
      { id := t.id, priority := priorityOf t, write := needsWriteLock t, depends_on := [] }
    horizon := { buckets := min tasks.length 8, capacity := maxConcurrency, write_cap := 1 }
    weights := { lateness := 1, priority := 1, fairness := 1/2, reorder_cost := 1/10 } }

/-- Reorder the playbook tasks per `delta.order`, keeping unmentioned
tasks: ids are looked up and removed from the `HashMap` one by one, and
the leftovers are appended (insertion order in this embedding). -/
def reorderByIds (order : List String) (tasks : List Task) : List Task :=
  let step := order.foldl
    (fun (acc : List (String × Task) × List Task) id =>
      match aremove id acc.1 with
      | some (t, rest) => (rest, acc.2 ++ [t])
      | none => acc)
    (tasks.map fun t => (t.id, t), [])
  step.2 ++ step.1.map fun p => p.2

/-- The order `execute_with_delegation` passes to the scheduler: the
optimiser's delta (identity order on error), applied to the playbook,
then reconciled by `topo_order_with_hint`. -/
def plannedOrder (maxConcurrency : Nat) (opt : Optimizer) (tasks : List Task) : List Task :=
  let inst := buildInstance maxConcurrency tasks
  let delta := match opt inst with
    | .ok d => d
    | .error _ => identityDelta inst
  topo_order_with_hint (reorderByIds delta.order tasks)

/-- `scheduler.rs::compute_concurrency` (CPU count and the
`ORCH_MAX_CONCURRENCY` override are environment inputs, passed
explicitly). -/
def compute_concurrency (envCap : Option Nat) (cpus : Nat) (cap total : Nat) : Nat :=
  let cpuLimit := max (cpus - 1) 1
  let hardCap := envCap.getD (max cap 1)
  min (min hardCap cpuLimit) (max total 1)

/-- A deterministic rendering of the `f64` confidence for the A/B summary
message (Rust's `Display` for the two values the core produces). -/
def confStr (q : Rat) : String :=
  if q = 0 then "0" else if q = 1/2 then "0.5" else toString q

/-- `lib.rs::execute_with_delegation`, as a pure function from the
playbook (plus the modelled environment) to the published events, the
final memory snapshot and the result.  Scaffold persistence is elided. -/
def execute_with_delegation (maxConcurrency : Nat) (envCap : Option Nat) (cpus : Nat)
    (opt : Optimizer) (before after : PolicyHook) (worker : Worker)
    (canceled : Bool) (mem0 : MemorySnapshot) (pb : Playbook) :
    List Event × MemorySnapshot × Except String Unit :=
  let startEv : Event :=
    { kind := .info, message := "starting playbook: " ++ pb.name, task_id := none }
  let inst := buildInstance maxConcurrency pb.tasks
  let delta := match opt inst with
    | .ok d => d
    | .error _ => identityDelta inst
  let ab := compare classicalOptimize opt inst
  let abEv : Event :=
    { kind := .info
      message := "qc_ab:winner=" ++ ab.winner ++ " classical_cost=" ++ toString ab.classical_cost
        ++ " qc_cost=" ++ toString ab.qc_cost ++ " confidence=" ++ confStr delta.confidence
      task_id := none }
  let ordered := plannedOrder maxConcurrency opt pb.tasks
  let target := compute_concurrency envCap cpus maxConcurrency ordered.length
  let targetEv : Event :=
    { kind := .info, message := "scheduler_target_concurrency=" ++ toString target
      task_id := none }
  let sched := schedulerRun canceled before after worker ordered mem0
  match sched.2.2 with
  | .error e => ([startEv, abEv, targetEv] ++ sched.1, sched.2.1, .error e)
  | .ok _ =>
      let doneEv : Event := { kind := .info, message := "playbook:done", task_id := none }
      ([startEv, abEv, targetEv] ++ sched.1 ++ [doneEv], sched.2.1, .ok ())

/-! ### Concrete fixtures used by claim witnesses and counterexamples -/

/-- A task with only a `depends_on` payload. -/
def taskDeps (i : String) (deps : List String) : Task :=
  { id := i, description := "", payload := Json.obj [("depends_on", Json.arr (deps.map Json.str))] }

/-- A task with an empty payload object. -/
def plainTask (i : String) : Task :=
  { id := i, description := "", payload := Json.obj [] }

/-- A QUBO task fixture. -/
def qt (i : String) (p : Int) (deps : List String) : QuboTask :=
  { id := i, priority := p, write := false, depends_on := deps }

/-- The weights `execute_with_delegation` always uses. -/
def stdWeights : QuboWeights :=
  { lateness := 1, priority := 1, fairness := 1/2, reorder_cost := 1/10 }

/-- The instance of spec scenario 1: `A(prio 0)`, `B(prio 5, deps [A])`,
`C(prio 10)`. -/
def instCAB : QuboInstance :=
  { tasks := [qt "A" 0 [], qt "B" 5 ["A"], qt "C" 10 []],
    horizon := { buckets := 3, capacity := 1, write_cap := 1 }, weights := stdWeights }

/-- Two tasks of equal priority whose instance order (`b` first) differs
from lexical id order. -/
def instTie : QuboInstance :=
  { tasks := [qt "b" 0 [], qt "a" 0 []],
    horizon := { buckets := 2, capacity := 1, write_cap := 1 }, weights := stdWeights }

/-- A two-cycle `x ↔ y` plus an independent `z`. -/
def instCyc : QuboInstance :=
  { tasks := [qt "x" 0 ["y"], qt "y" 0 ["x"], qt "z" 0 []],
    horizon := { buckets := 3, capacity := 1, write_cap := 1 }, weights := stdWeights }

/-- The write-lock scenario queue entries. -/
def taskW : Task :=
  { id := "W", description := "write", payload := Json.obj [("needs_write_lock", Json.bool true)] }

/-- Read task of the write-lock scenario. -/
def taskR : Task := { id := "R", description := "read", payload := Json.obj [] }

/-- The empty snapshot (`MemorySnapshot::default()`). -/
def memEmpty : MemorySnapshot := { state := Json.null, todo := [] }

/-- A worker that always succeeds with an empty object. -/
def okWorker : Worker := fun _ => .ok (Json.obj [])

/-! ### C6 — A/B comparator correctness -/

/-- The delta `compare` scores for its first optimiser (fallback: the
instance's identity order). -/
def abBase (a : Optimizer) (inst : QuboInstance) : ScheduleDelta :=
  match a inst with
  | .ok d => d
  | .error _ => identityDelta inst

/-- The delta `compare` scores for its second optimiser (fallback: the
first optimiser's delta). -/
def abQd (a b : Optimizer) (inst : QuboInstance) : ScheduleDelta :=
  match b inst with
  | .ok d => d
  | .error _ => abBase a inst

theorem compare_classical_cost (a b : Optimizer) (inst : QuboInstance) :
    (compare a b inst).classical_cost = cost_order inst (abBase a inst).order := rfl

theorem compare_qc_cost (a b : Optimizer) (inst : QuboInstance) :
    (compare a b inst).qc_cost = cost_order inst (abQd a b inst).order := rfl

theorem compare_winner_eq (a b : Optimizer) (inst : QuboInstance) :
    (compare a b inst).winner =
      (if cost_order inst (abQd a b inst).order < cost_order inst (abBase a inst).order
       then "qc"
       else if cost_order inst (abBase a inst).order < cost_order inst (abQd a b inst).order
       then "classical" else "tie") := rfl

theorem winnerStr_spec (cc qcc : Int) :
    ((if qcc < cc then "qc" else if cc < qcc then "classical" else "tie") = "qc" ↔ qcc < cc)
    ∧ ((if qcc < cc then "qc" else if cc < qcc then "classical" else "tie") = "classical" ↔ cc < qcc)
    ∧ ((if qcc < cc then "qc" else if cc < qcc then "classical" else "tie") = "tie" ↔ cc = qcc) := by
  by_cases h1 : qcc < cc
  · rw [if_pos h1]
    exact ⟨⟨fun _ => h1, fun _ => rfl⟩,
      ⟨fun h => absurd h (by decide), fun h => absurd h1 (by omega)⟩,
      ⟨fun h => absurd h (by decide), fun h => absurd h1 (by omega)⟩⟩
  · rw [if_neg h1]
    by_cases h2 : cc < qcc
    · rw [if_pos h2]
      exact ⟨⟨fun h => absurd h (by decide), fun h => absurd h2 (by omega)⟩,
        ⟨fun _ => h2, fun _ => rfl⟩,
        ⟨fun h => absurd h (by decide), fun h => absurd h2 (by omega)⟩⟩
    · rw [if_neg h2]
      exact ⟨⟨fun h => absurd h (by decide), fun h => absurd h h1⟩,
        ⟨fun h => absurd h (by decide), fun h => absurd h h2⟩,
        ⟨fun _ => by omega, fun _ => rfl⟩⟩

/-- C6: for every pair of optimisers and every instance, `compare`
declares the strictly cheaper order's optimiser the winner and declares a
tie exactly when the two costs are equal; in particular comparing any
optimiser with itself is a tie. -/
theorem ab_compare_winner_correct (a b : Optimizer) (inst : QuboInstance) :
    ((compare a b inst).winner = "qc" ↔ (compare a b inst).qc_cost < (compare a b inst).classical_cost)
    ∧ ((compare a b inst).winner = "classical" ↔ (compare a b inst).classical_cost < (compare a b inst).qc_cost)
    ∧ ((compare a b inst).winner = "tie" ↔ (compare a b inst).classical_cost = (compare a b inst).qc_cost)
    ∧ (∀ opt : Optimizer, (compare opt opt inst).winner = "tie") := by
  have hspec := fun (x y : Optimizer) => winnerStr_spec
    (cost_order inst (abBase x inst).order) (cost_order inst (abQd x y inst).order)
  refine ⟨?_, ?_, ?_, ?_⟩
  · rw [compare_winner_eq, compare_qc_cost, compare_classical_cost]
    exact (hspec a b).1
  · rw [compare_winner_eq, compare_qc_cost, compare_classical_cost]
    exact (hspec a b).2.1
  · rw [compare_winner_eq, compare_qc_cost, compare_classical_cost]
    exact (hspec a b).2.2
  · intro opt
    rw [compare_winner_eq]
    have hself : abQd opt opt inst = abBase opt inst := by
      unfold abQd abBase
      cases opt inst with
      | ok d => rfl
      | error e => rfl
    rw [hself]
    exact (winnerStr_spec _ _).2.2.mpr rfl

/-! ### C7 — write-lock-aware `pop_eligible` -/

/-- C7: `pop_eligible` returns the first task whose `needs_write_lock`
flag is false, or — with no writes in flight — the head of the queue;
it returns `None` exactly when no task is eligible, reports the popped
task's flag faithfully, leaves the remaining queue a subsequence of the
original (so non-write tasks are never reordered), and on the queue
`[W(write), R(read)]` with one write in flight it pops `R`. -/
theorem pop_eligible_spec (q : List Task) (wif : Nat) :
    (wif > 0 → (pop_eligible q wif).map (fun pr => pr.1.1)
        = q.find? fun t => ! needsWriteLock t)
    ∧ (wif = 0 → pop_eligible q wif = q.head?.map fun t => ((t, needsWriteLock t), q.tail))
    ∧ (pop_eligible q wif = none ↔ ∀ t ∈ q, needsWriteLock t = true ∧ wif > 0)
    ∧ (∀ t needs rest, pop_eligible q wif = some ((t, needs), rest) →
        needs = needsWriteLock t ∧ rest.Sublist q)
    ∧ pop_eligible [taskW, taskR] 1 = some ((taskR, false), [taskW]) := by
  refine ⟨?_, ?_, ?_, ?_, by rfl⟩
  · intro hw
    induction q with
    | nil => rfl
    | cons t rest ih =>
        by_cases hnw : needsWriteLock t
        · have hcond : (needsWriteLock t = true ∧ wif > 0) := ⟨hnw, hw⟩
          show (if needsWriteLock t = true ∧ wif > 0 then
              (pop_eligible rest wif).map fun pr => (pr.1, t :: pr.2)
            else some ((t, needsWriteLock t), rest)).map (fun pr => pr.1.1)
            = (t :: rest).find? fun u => ! needsWriteLock u
          rw [if_pos hcond, List.find?_cons_of_neg _ (by simp [hnw])]
          simpa [Option.map_map, Function.comp] using ih
        · have hcond : ¬ (needsWriteLock t = true ∧ wif > 0) := fun hc => hnw hc.1
          have hnw2 : needsWriteLock t = false := by simpa using hnw
          show (if needsWriteLock t = true ∧ wif > 0 then
              (pop_eligible rest wif).map fun pr => (pr.1, t :: pr.2)
            else some ((t, needsWriteLock t), rest)).map (fun pr => pr.1.1)
            = (t :: rest).find? fun u => ! needsWriteLock u
          rw [if_neg hcond, List.find?_cons_of_pos _ (by simp [hnw2])]
          simp
  · intro hw
    subst hw
    cases q with
    | nil => rfl
    | cons t rest =>
        have hcond : ¬ (needsWriteLock t = true ∧ (0 : Nat) > 0) := by simp
        simp [pop_eligible, hcond]
  · induction q with
    | nil => simp [pop_eligible]
    | cons t rest ih =>
        by_cases hc : (needsWriteLock t = true ∧ wif > 0)
        · simp only [pop_eligible, if_pos hc]
          constructor
          · intro h
            intro u hu
            rcases List.mem_cons.mp hu with rfl | hmem
            · exact hc
            · cases hne : pop_eligible rest wif with
              | none => exact (ih.mp hne) u hmem
              | some pr => rw [hne] at h; cases h
          · intro h
            have : pop_eligible rest wif = none :=
              ih.mpr fun u hu => h u (List.mem_cons_of_mem _ hu)
            simp [this]
        · simp only [pop_eligible, if_neg hc]
          constructor
          · intro h; cases h
          · intro h
            exact absurd (h t (List.mem_cons_self _ _)) fun hx => hc hx
  · induction q with
    | nil => intro t needs rest h; cases h
    | cons u us ih =>
        intro t needs rest h
        by_cases hc : (needsWriteLock u = true ∧ wif > 0)
        · simp only [pop_eligible, if_pos hc] at h
          cases hrec : pop_eligible us wif with
          | none => rw [hrec] at h; simp at h
          | some pr =>
              rw [hrec] at h
              obtain ⟨⟨t1, n1⟩, r1⟩ := pr
              have h2 : (((t1, n1), u :: r1) : (Task × Bool) × List Task) = ((t, needs), rest) :=
                Option.some.inj h
              have ht : (t1, n1) = (t, needs) := congrArg Prod.fst h2
              have hr : u :: r1 = rest := congrArg Prod.snd h2
              rw [Prod.mk.injEq] at ht
              obtain ⟨rfl, rfl⟩ := ht
              subst hr
              obtain ⟨h1, h3⟩ := ih t1 n1 r1 hrec
              exact ⟨h1, List.Sublist.cons₂ _ h3⟩
        · simp only [pop_eligible, if_neg hc] at h
          have h2 : (((u, needsWriteLock u), us) : (Task × Bool) × List Task) = ((t, needs), rest) :=
            Option.some.inj h
          have ht : (u, needsWriteLock u) = (t, needs) := congrArg Prod.fst h2
          have hr : us = rest := congrArg Prod.snd h2
          rw [Prod.mk.injEq] at ht
          obtain ⟨rfl, rfl⟩ := ht
          subst hr
          exact ⟨rfl, List.sublist_cons_self _ _⟩

/-- C7 witness: the general statement instantiated on the two-element
write-lock scenario with one write in flight. -/
theorem pop_eligible_spec_witness :
    (pop_eligible [taskW, taskR] 1).map (fun pr => pr.1.1)
      = [taskW, taskR].find? (fun t => ! needsWriteLock t) ∧
    (pop_eligible [taskW, taskR] 1 = none ↔
      ∀ t ∈ [taskW, taskR], needsWriteLock t = true ∧ 1 > 0) :=
  ⟨(pop_eligible_spec [taskW, taskR] 1).1 (by decide),
   (pop_eligible_spec [taskW, taskR] 1).2.2.1⟩

/-! ### C2 — memory merge semantics -/

theorem alookup_not_mem (k : String) (l : List (String × α))
    (h : k ∉ l.map Prod.fst) : alookup k l = none := by
  induction l with
  | nil => rfl
  | cons p rest ih =>
      obtain ⟨k0, v0⟩ := p
      simp only [List.map_cons, List.mem_cons] at h
      push_neg at h
      have hne : ¬ (k0 = k) := fun he => h.1 (Eq.symm he)
      simp only [alookup, if_neg hne]
      exact ih h.2

theorem alookup_append (k : String) (l1 l2 : List (String × α)) :
    alookup k (l1 ++ l2) =
      match alookup k l1 with
      | some v => some v
      | none => alookup k l2 := by
  induction l1 with
  | nil => simp [alookup]
  | cons p rest ih =>
      obtain ⟨k0, v0⟩ := p
      by_cases h : k0 = k
      · simp [alookup, h]
      · simpa [alookup, h] using ih

/-- Lookup characterisation of `merge_json` on objects: a key merged
recursively when both sides carry it, taken from the patch when only the
patch does, and kept from the base otherwise. -/
theorem mergeObjList_lookup (p : List (String × Json)) (b : List (String × Json))
    (hpn : (p.map Prod.fst).Nodup) (k : String) :
    alookup k (mergeObjList b p) =
      match alookup k p with
      | some pv =>
        match alookup k b with
        | some bv => some (merge_json bv pv)
        | none => some pv
      | none => alookup k b := by
  induction p generalizing b with
  | nil => simp [mergeObjList, alookup]
  | cons q rest ih =>
      obtain ⟨k0, v⟩ := q
      simp only [List.map_cons, List.nodup_cons] at hpn
      obtain ⟨hk0, hrest⟩ := hpn
      have hrestNone : alookup k0 rest = none := alookup_not_mem _ _ hk0
      by_cases hk : k0 = k
      · subst hk
        simp only [alookup, if_pos rfl]
        cases hb : alookup k0 b with
        | some old =>
            simp only [mergeObjList, hb]
            rw [ih _ hrest, hrestNone]
            exact alookup_aset_self _ _ _ (by simp [hb])
        | none =>
            simp only [mergeObjList, hb]
            rw [ih _ hrest, hrestNone, alookup_append, hb]
            simp [alookup]
      · simp only [alookup, if_neg hk]
        cases hb : alookup k0 b with
        | some old =>
            simp only [mergeObjList, hb]
            rw [ih _ hrest]
            rw [alookup_aset_other _ _ _ _ (fun he => hk he.symm)]
        | none =>
            simp only [mergeObjList, hb]
            rw [ih _ hrest, alookup_append]
            have : alookup k [(k0, v)] = none := by simp [alookup, hk]
            cases hbk : alookup k b <;> simp [hbk, this]

/-- `merge_json` overwrites whenever the patch is not an object. -/
theorem merge_json_patch_overwrites (base pv : Json)
    (h : ∀ kvs, pv ≠ Json.obj kvs) : merge_json base pv = pv := by
  cases base <;> cases pv <;> first
    | rfl
    | exact absurd rfl (h _)

/-- `merge_json` overwrites whenever the base is not an object. -/
theorem merge_json_base_overwrites (base pv : Json)
    (h : ∀ kvs, base ≠ Json.obj kvs) : merge_json base pv = pv := by
  cases base <;> cases pv <;> first
    | rfl
    | exact absurd rfl (h _)

/-- A title with no match leaves the todo list unchanged. -/
theorem updateTodoStatus_no_match (title st : String) (l : List TodoItem)
    (h : ∀ u ∈ l, u.title ≠ title) : updateTodoStatus title st l = l := by
  induction l with
  | nil => rfl
  | cons t rest ih =>
      have ht : t.title ≠ title := h t (List.mem_cons_self _ _)
      simp only [updateTodoStatus, if_neg ht]
      rw [ih fun u hu => h u (List.mem_cons_of_mem _ hu)]

/-- Only the FIRST matching todo item has its status replaced. -/
theorem updateTodoStatus_first_match (title st : String) (pre : List TodoItem)
    (item : TodoItem) (post : List TodoItem)
    (hpre : ∀ u ∈ pre, u.title ≠ title) (hitem : item.title = title) :
    updateTodoStatus title st (pre ++ item :: post)
      = pre ++ { item with status := st } :: post := by
  induction pre with
  | nil => simp [updateTodoStatus, hitem]
  | cons t rest ih =>
      have ht : t.title ≠ title := hpre t (List.mem_cons_self _ _)
      simp only [List.cons_append, updateTodoStatus, if_neg ht]
      exact congrArg (List.cons t) (ih fun u hu => hpre u (List.mem_cons_of_mem _ hu))

/-- C2 (amended): merging a delta deep-merges `state_patch` into `state`
with object keys merged recursively and EVERYTHING else — arrays
included — overwritten by the patch; `todo_add` is appended; each
`todo_update` entry updates the status of only the FIRST todo item whose
title matches. -/
theorem memMerge_spec (snap : MemorySnapshot) (delta : MemoryDelta)
    (b p : List (String × Json))
    (hs : snap.state = Json.obj b) (hp : delta.state_patch = Json.obj p)
    (hpn : (p.map Prod.fst).Nodup) :
    ((memMerge snap delta).state = Json.obj (mergeObjList b p))
    ∧ (∀ k, alookup k (mergeObjList b p) =
        match alookup k p with
        | some pv =>
          match alookup k b with
          | some bv => some (merge_json bv pv)
          | none => some pv
        | none => alookup k b)
    ∧ (∀ base pv : Json, (∀ kvs, pv ≠ Json.obj kvs) → merge_json base pv = pv)
    ∧ (delta.todo_update = [] → (memMerge snap delta).todo = snap.todo ++ delta.todo_add)
    ∧ (∀ title st l, (∀ u ∈ l, u.title ≠ title) → updateTodoStatus title st l = l)
    ∧ (∀ title st pre item post, (∀ u ∈ pre, u.title ≠ title) → item.title = title →
        updateTodoStatus title st (pre ++ item :: post)
          = pre ++ { item with status := st } :: post) := by
  refine ⟨?_, fun k => mergeObjList_lookup p b hpn k, merge_json_patch_overwrites, ?_,
    updateTodoStatus_no_match, updateTodoStatus_first_match⟩
  · simp [memMerge, hs, hp, Json.isNull, merge_json]
  · intro hupd
    simp [memMerge, hupd]

/-- The todo item fixture used by the C2 counterexample. -/
def todoT (st : String) : TodoItem :=
  { title := "t", status := st, assignee := none, priority := none, notes := [] }

/-- C2 counterexample: on `state = {a: [1]}` and `state_patch = {a: [2]}`
the merged state is `{a: [2]}` — the arrays are NOT concatenated — and
with two todo items of the same title a matching `todo_update` entry only
updates the first one, not each of them. -/
theorem memMerge_counterexample :
    (memMerge { state := Json.obj [("a", Json.arr [Json.num 1])], todo := [] }
        { state_patch := Json.obj [("a", Json.arr [Json.num 2])],
          todo_add := [], todo_update := [] }).state
      = Json.obj [("a", Json.arr [Json.num 2])]
    ∧ (memMerge { state := Json.obj [("a", Json.arr [Json.num 1])], todo := [] }
        { state_patch := Json.obj [("a", Json.arr [Json.num 2])],
          todo_add := [], todo_update := [] }).state
      ≠ Json.obj [("a", Json.arr [Json.num 1, Json.num 2])]
    ∧ (memMerge { state := Json.null, todo := [todoT "open", todoT "open"] }
        { state_patch := Json.null, todo_add := [], todo_update := [("t", "done")] }).todo
      = [todoT "done", todoT "open"]
    ∧ (memMerge { state := Json.null, todo := [todoT "open", todoT "open"] }
        { state_patch := Json.null, todo_add := [], todo_update := [("t", "done")] }).todo
      ≠ [todoT "done", todoT "done"] := by
  refine ⟨rfl, ?_, rfl, ?_⟩
  · intro h
    simp [memMerge, merge_json, mergeObjList, alookup, aset, Json.isNull, todoT] at h
  · intro h
    simp [memMerge, updateTodoStatus, todoT] at h

/-- C2 witness: the amended statement instantiated on the merge of
`{a: {b: 1}, c: 2}` patched by `{a: {d: 3}, e: 4}`. -/
theorem memMerge_spec_witness :
    (({ state := Json.obj [("a", Json.obj [("b", Json.num 1)]), ("c", Json.num 2)],
        todo := [] } : MemorySnapshot).state
      = Json.obj [("a", Json.obj [("b", Json.num 1)]), ("c", Json.num 2)])
    ∧ (([("a", Json.obj [("d", Json.num 3)]), ("e", Json.num 4)].map Prod.fst).Nodup)
    ∧ (∀ k, alookup k (mergeObjList
        [("a", Json.obj [("b", Json.num 1)]), ("c", Json.num 2)]
        [("a", Json.obj [("d", Json.num 3)]), ("e", Json.num 4)]) =
        match alookup k [("a", Json.obj [("d", Json.num 3)]), ("e", Json.num 4)] with
        | some pv =>
          match alookup k [("a", Json.obj [("b", Json.num 1)]), ("c", Json.num 2)] with
          | some bv => some (merge_json bv pv)
          | none => some pv
        | none => alookup k [("a", Json.obj [("b", Json.num 1)]), ("c", Json.num 2)]) := by
  refine ⟨rfl, by decide, ?_⟩
  exact (memMerge_spec
    { state := Json.obj [("a", Json.obj [("b", Json.num 1)]), ("c", Json.num 2)], todo := [] }
    { state_patch := Json.obj [("a", Json.obj [("d", Json.num 3)]), ("e", Json.num 4)],
      todo_add := [], todo_update := [] }
    _ _ rfl rfl (by decide)).2.1

/-! ### C10 — `last_result` merging by the runner -/

/-- C10 (amended): the runner always merges a state patch whose
`last_result` key holds the entire worker result (deep-merged with the
result's `memory_update` when present); because the memory service
DEEP-merges the patch, the snapshot's `last_result` afterwards is the
recursive object-merge of the previous value with the new result — it
equals the new result outright only when there was no previous object
value to merge with. -/
theorem run_one_last_result (worker : Worker) (mem : MemorySnapshot) (t : Task) (r : Json)
    (hw : worker t = .ok r) (hmu : r.get "memory_update" = none) :
    ((run_one false noopBeforeTask noopAfterTask worker mem t).2.1
        = memMerge mem { state_patch := lastResultPatch r, todo_add := [], todo_update := [] })
    ∧ lastResultPatch r = Json.obj [("last_result", r)]
    ∧ ((run_one false noopBeforeTask noopAfterTask worker mem t).2.1.state.get "last_result"
        = match mem.state with
          | Json.obj b =>
            match alookup "last_result" b with
            | some old => some (merge_json old r)
            | none => some r
          | _ => some r) := by
  have hpatch : lastResultPatch r = Json.obj [("last_result", r)] := by
    simp [lastResultPatch, hmu]
  have hmem : (run_one false noopBeforeTask noopAfterTask worker mem t).2.1
      = memMerge mem { state_patch := lastResultPatch r, todo_add := [], todo_update := [] } := by
    simp [run_one, hw, noopBeforeTask, noopAfterTask]
  refine ⟨hmem, hpatch, ?_⟩
  rw [hmem, hpatch]
  have hsingle : ∀ b : List (String × Json),
      alookup "last_result" (mergeObjList b [("last_result", r)]) =
        match alookup "last_result" b with
        | some old => some (merge_json old r)
        | none => some r := by
    intro b
    rw [mergeObjList_lookup [("last_result", r)] b (by simp) "last_result"]
    simp [alookup]
  obtain ⟨st, td⟩ := mem
  cases st with
  | null => exact hsingle []
  | obj b => exact hsingle b
  | bool v => rfl
  | num v => rfl
  | str v => rfl
  | arr v => rfl

/-- A worker returning `{a: 1}`. -/
def workerRA : Worker := fun _ => .ok (Json.obj [("a", Json.num 1)])

/-- A worker returning `{b: 2}`. -/
def workerRB : Worker := fun _ => .ok (Json.obj [("b", Json.num 2)])

/-- C10 counterexample: after running a task whose result is `{a: 1}`
and then one whose result is `{b: 2}`, the snapshot's `last_result` is
the MERGED object `{a: 1, b: 2}`, not the second task's result `{b: 2}`:
the previous task's value is not overwritten. -/
theorem run_one_last_result_counterexample :
    ((run_one false noopBeforeTask noopAfterTask workerRB
        (run_one false noopBeforeTask noopAfterTask workerRA memEmpty (plainTask "t1")).2.1
        (plainTask "t2")).2.1.state.get "last_result"
      = some (Json.obj [("a", Json.num 1), ("b", Json.num 2)]))
    ∧ ((run_one false noopBeforeTask noopAfterTask workerRB
        (run_one false noopBeforeTask noopAfterTask workerRA memEmpty (plainTask "t1")).2.1
        (plainTask "t2")).2.1.state.get "last_result"
      ≠ some (Json.obj [("b", Json.num 2)])) := by
  refine ⟨rfl, ?_⟩
  intro h
  rw [show ((run_one false noopBeforeTask noopAfterTask workerRB
      (run_one false noopBeforeTask noopAfterTask workerRA memEmpty (plainTask "t1")).2.1
      (plainTask "t2")).2.1.state.get "last_result")
      = some (Json.obj [("a", Json.num 1), ("b", Json.num 2)]) from rfl] at h
  simp at h

/-- C10 witness: the amended statement instantiated on a snapshot whose
`last_result` already holds `{a: 1}` and a worker result `{b: 2}`. -/
theorem run_one_last_result_witness :
    workerRB (plainTask "t2") = .ok (Json.obj [("b", Json.num 2)])
    ∧ (Json.obj [("b", Json.num 2)]).get "memory_update" = none
    ∧ ((run_one false noopBeforeTask noopAfterTask workerRB
        { state := Json.obj [("last_result", Json.obj [("a", Json.num 1)])], todo := [] }
        (plainTask "t2")).2.1.state.get "last_result"
      = match (Json.obj [("last_result", Json.obj [("a", Json.num 1)])] : Json) with
        | Json.obj b =>
          match alookup "last_result" b with
          | some old => some (merge_json old (Json.obj [("b", Json.num 2)]))
          | none => some (Json.obj [("b", Json.num 2)])
        | _ => some (Json.obj [("b", Json.num 2)])) :=
  ⟨rfl, rfl,
    (run_one_last_result workerRB
      { state := Json.obj [("last_result", Json.obj [("a", Json.num 1)])], todo := [] }
      (plainTask "t2") (Json.obj [("b", Json.num 2)]) rfl rfl).2.2⟩

/-! ### C8 — per-task event sequence -/

/-- C8 (amended): for a task that is not cancelled, with the no-op policy
hooks and a succeeding worker, the events published for the task appear
in exactly the sequence task-start, policy-before, policy-after,
task-done (the source publishes `task:start` BEFORE the before-hook and
`task:done` AFTER the after-hook). -/
theorem run_one_event_sequence (worker : Worker) (mem : MemorySnapshot) (t : Task) (r : Json)
    (hw : worker t = .ok r) :
    (run_one false noopBeforeTask noopAfterTask worker mem t).1 =
      [{ kind := .progress, message := "task:start:" ++ t.id, task_id := some t.id },
       { kind := .info, message := "policy:before:" ++ t.id, task_id := none },
       { kind := .info, message := "policy:after:" ++ t.id, task_id := none },
       { kind := .progress, message := "task:done", task_id := some t.id }] := by
  simp [run_one, hw, noopBeforeTask, noopAfterTask]

/-- C8 witness: the amended sequence on a concrete task. -/
theorem run_one_event_sequence_witness :
    okWorker (plainTask "t1") = .ok (Json.obj [])
    ∧ (run_one false noopBeforeTask noopAfterTask okWorker memEmpty (plainTask "t1")).1 =
      [{ kind := .progress, message := "task:start:t1", task_id := some "t1" },
       { kind := .info, message := "policy:before:t1", task_id := none },
       { kind := .info, message := "policy:after:t1", task_id := none },
       { kind := .progress, message := "task:done", task_id := some "t1" }] :=
  ⟨rfl, run_one_event_sequence okWorker memEmpty (plainTask "t1") (Json.obj []) rfl⟩

/-- C8 counterexample: the claimed sequence policy-before → task-start →
task-done → policy-after does not match the published events; the actual
first event is `task:start:t1`, not `policy:before:t1`. -/
theorem run_one_event_sequence_counterexample :
    (run_one false noopBeforeTask noopAfterTask okWorker memEmpty (plainTask "t1")).1
      ≠ [{ kind := .info, message := "policy:before:t1", task_id := none },
         { kind := .progress, message := "task:start:t1", task_id := some "t1" },
         { kind := .progress, message := "task:done", task_id := some "t1" },
         { kind := .info, message := "policy:after:t1", task_id := none }] := by
  intro h
  rw [show (run_one false noopBeforeTask noopAfterTask okWorker memEmpty (plainTask "t1")).1
      = [{ kind := .progress, message := "task:start:t1", task_id := some "t1" },
         { kind := .info, message := "policy:before:t1", task_id := none },
         { kind := .info, message := "policy:after:t1", task_id := none },
         { kind := .progress, message := "task:done", task_id := some "t1" }] from rfl] at h
  simp at h

/-! ### C9 — cancellation -/

/-- A cancelled run publishes one Warn per scheduled task and touches
nothing. -/
theorem schedulerRun_canceled (before after : PolicyHook) (worker : Worker)
    (ts : List Task) (mem : MemorySnapshot) :
    schedulerRun true before after worker ts mem =
      (List.replicate ts.length
        { kind := .warn, message := "canceled", task_id := none }, mem, .ok ()) := by
  induction ts with
  | nil => rfl
  | cons t rest ih =>
      have hro : run_one true before after worker mem t
          = ([{ kind := .warn, message := "canceled", task_id := none }], mem, .ok ()) := rfl
      simp [schedulerRun, hro, ih, List.replicate_succ]

theorem aremove_length (k : String) (l : List (String × α)) (v : α)
    (rest : List (String × α)) (h : aremove k l = some (v, rest)) :
    rest.length + 1 = l.length := by
  induction l generalizing v rest with
  | nil => cases h
  | cons p tl ih =>
      obtain ⟨k0, v0⟩ := p
      by_cases hk : k0 = k
      · simp only [aremove, if_pos hk] at h
        rw [Option.some.injEq, Prod.mk.injEq] at h
        obtain ⟨rfl, rfl⟩ := h
        simp
      · simp only [aremove, if_neg hk] at h
        cases hr : aremove k tl with
        | none => rw [hr] at h; cases h
        | some pr =>
            obtain ⟨v1, r1⟩ := pr
            rw [hr, Option.some.injEq, Prod.mk.injEq] at h
            obtain ⟨rfl, rfl⟩ := h
            have := ih v1 r1 hr
            simp only [List.length_cons]
            omega

theorem reorderByIds_length (order : List String) (tasks : List Task) :
    (reorderByIds order tasks).length = tasks.length := by
  suffices h : ∀ (o : List String) (acc : List (String × Task) × List Task),
      ((o.foldl
        (fun (acc : List (String × Task) × List Task) id =>
          match aremove id acc.1 with
          | some (t, rest) => (rest, acc.2 ++ [t])
          | none => acc)
        acc).1.length +
       (o.foldl
        (fun (acc : List (String × Task) × List Task) id =>
          match aremove id acc.1 with
          | some (t, rest) => (rest, acc.2 ++ [t])
          | none => acc)
        acc).2.length) = acc.1.length + acc.2.length by
    have h2 := h order (tasks.map fun t => (t.id, t), [])
    simp only [reorderByIds, List.length_append, List.length_map, List.length_nil] at h2 ⊢
    omega
  intro o
  induction o with
  | nil => intro acc; rfl
  | cons id rest ih =>
      intro acc
      simp only [List.foldl_cons]
      cases hr : aremove id acc.1 with
      | none => rw [ih]
      | some pr =>
          obtain ⟨t, r1⟩ := pr
          rw [ih]
          have := aremove_length id acc.1 t r1 hr
          simp only [List.length_append, List.length_cons, List.length_nil]
          omega

theorem kahnStep_length (s : KahnState) (id : String) :
    (kahnStep s id).byId.length + (kahnStep s id).out.length
      = s.byId.length + s.out.length := by
  unfold kahnStep
  cases hb : aremove id s.byId with
  | none =>
      cases he : aremove id s.edges <;> simp
  | some pr =>
      obtain ⟨t, rest⟩ := pr
      have := aremove_length id s.byId t rest hb
      cases he : aremove id s.edges <;> simp <;> omega

theorem kahnLoop_length (fuel : Nat) (s : KahnState) :
    (kahnLoop fuel s).byId.length + (kahnLoop fuel s).out.length
      = s.byId.length + s.out.length := by
  induction fuel generalizing s with
  | zero => rfl
  | succ n ih =>
      simp only [kahnLoop]
      cases s.ready.getLast? with
      | none => rfl
      | some id => rw [ih]; exact kahnStep_length _ _

theorem topo_order_with_hint_length (tasks : List Task) :
    (topo_order_with_hint tasks).length = tasks.length := by
  have h := kahnLoop_length (kahnFuel tasks)
    { byId := tasks.map fun t => (t.id, t)
      indeg := (buildGraph (tasks.map fun t => (t.id, t))).1
      edges := (buildGraph (tasks.map fun t => (t.id, t))).2
      ready := sortIds (((buildGraph (tasks.map fun t => (t.id, t))).1.filter
        (fun kv => kv.2 = 0)).map (fun kv => kv.1))
      out := [] }
  simp only [List.length_map, List.length_nil] at h
  simp only [topo_order_with_hint, kahnEmitted, kahnResidue, kahnFinal,
    List.length_append, List.length_map]
  omega

/-- C9 (amended): cancelling before `execute_with_delegation` skips every
task (memory is untouched and no Progress — `task:start:*`/`task:done` —
event is published), publishes ONE Warn("canceled") event PER task (so a
single Warn only for single-task playbooks), and returns success. -/
theorem execute_canceled_spec (maxC : Nat) (envCap : Option Nat) (cpus : Nat)
    (opt : Optimizer) (worker : Worker) (mem : MemorySnapshot) (pb : Playbook) :
    ((execute_with_delegation maxC envCap cpus opt noopBeforeTask noopAfterTask worker
        true mem pb).2.2 = .ok ())
    ∧ (((execute_with_delegation maxC envCap cpus opt noopBeforeTask noopAfterTask worker
        true mem pb).1.filter fun e => e.kind = .warn).length = pb.tasks.length)
    ∧ (∀ e ∈ (execute_with_delegation maxC envCap cpus opt noopBeforeTask noopAfterTask worker
        true mem pb).1, e.kind = .warn → e.message = "canceled")
    ∧ (∀ e ∈ (execute_with_delegation maxC envCap cpus opt noopBeforeTask noopAfterTask worker
        true mem pb).1, e.kind ≠ .progress)
    ∧ (execute_with_delegation maxC envCap cpus opt noopBeforeTask noopAfterTask worker
        true mem pb).2.1 = mem := by
  have hsched := schedulerRun_canceled noopBeforeTask noopAfterTask worker
    (plannedOrder maxC opt pb.tasks) mem
  have hlen : (plannedOrder maxC opt pb.tasks).length = pb.tasks.length := by
    simp only [plannedOrder]
    rw [topo_order_with_hint_length, reorderByIds_length]
  have hexp : execute_with_delegation maxC envCap cpus opt noopBeforeTask noopAfterTask worker
      true mem pb =
      (({ kind := .info, message := "starting playbook: " ++ pb.name, task_id := none } : Event) ::
        ({ kind := .info
           message := "qc_ab:winner=" ++ (compare classicalOptimize opt
               (buildInstance maxC pb.tasks)).winner
             ++ " classical_cost=" ++ toString (compare classicalOptimize opt
               (buildInstance maxC pb.tasks)).classical_cost
             ++ " qc_cost=" ++ toString (compare classicalOptimize opt
               (buildInstance maxC pb.tasks)).qc_cost
             ++ " confidence=" ++ confStr (match opt (buildInstance maxC pb.tasks) with
               | .ok d => d
               | .error _ => identityDelta (buildInstance maxC pb.tasks)).confidence
           task_id := none } : Event) ::
        ({ kind := .info
           message := "scheduler_target_concurrency="
             ++ toString (compute_concurrency envCap cpus maxC (plannedOrder maxC opt pb.tasks).length)
           task_id := none } : Event) ::
        (List.replicate pb.tasks.length
            ({ kind := .warn, message := "canceled", task_id := none } : Event)
          ++ [{ kind := .info, message := "playbook:done", task_id := none }]),
        mem, .ok ()) := by
    simp only [execute_with_delegation, hsched, hlen]
    rfl
  rw [hexp]
  refine ⟨rfl, ?_, ?_, ?_, rfl⟩
  · simp [List.filter_append, List.filter_replicate]
  · intro e he hw
    simp only [List.mem_cons, List.mem_append, List.mem_replicate, List.mem_singleton,
      List.not_mem_nil, or_false] at he
    rcases he with rfl | rfl | rfl | ⟨_, rfl⟩ | rfl <;> first | rfl | cases hw
  · intro e he
    simp only [List.mem_cons, List.mem_append, List.mem_replicate, List.mem_singleton,
      List.not_mem_nil, or_false] at he
    rcases he with rfl | rfl | rfl | ⟨_, rfl⟩ | rfl <;> intro hk <;> cases hk

/-- C9 counterexample: with a two-task playbook cancelled up front, TWO
Warn events are published (one per skipped task), not exactly one. -/
theorem execute_canceled_counterexample :
    (((execute_with_delegation 1 none 4 classicalOptimize noopBeforeTask noopAfterTask okWorker
        true memEmpty { name := "p", tasks := [plainTask "1", plainTask "2"] }).1.filter
      fun e => e.kind = .warn).length = 2)
    ∧ (((execute_with_delegation 1 none 4 classicalOptimize noopBeforeTask noopAfterTask okWorker
        true memEmpty { name := "p", tasks := [plainTask "1", plainTask "2"] }).1.filter
      fun e => e.kind = .warn).length ≠ 1) := by
  have h2 := (execute_canceled_spec 1 none 4 classicalOptimize okWorker memEmpty
    { name := "p", tasks := [plainTask "1", plainTask "2"] }).2.1
  constructor
  · exact h2
  · rw [h2]; decide

/-! ### C4 — optimiser fallback -/

theorem reorderByIds_self (ts : List Task) : reorderByIds (ts.map Task.id) ts = ts := by
  suffices h : ∀ (u : List Task) (pre : List Task),
      ((u.map Task.id).foldl
        (fun (acc : List (String × Task) × List Task) id =>
          match aremove id acc.1 with
          | some (t, rest) => (rest, acc.2 ++ [t])
          | none => acc)
        (u.map fun t => (t.id, t), pre)) = ([], pre ++ u) by
    have h2 := h ts []
    simp only [reorderByIds, h2, List.nil_append, List.map_nil, List.append_nil]
  intro u
  induction u with
  | nil => intro pre; simp
  | cons t rest ih =>
      intro pre
      simp only [List.map_cons, List.foldl_cons]
      have hrm : aremove t.id ((t.id, t) :: rest.map fun u => (u.id, u))
          = some (t, rest.map fun u => (u.id, u)) := by
        simp [aremove]
      rw [hrm]
      have h3 := ih (pre ++ [t])
      simp only [List.append_assoc, List.singleton_append] at h3
      exact h3

/-- The order the erroring optimiser induces is the identity. -/
theorem plannedOrder_err (maxC : Nat) (opt : Optimizer)
    (herr : ∀ inst, ∃ e, opt inst = .error e) (ts : List Task) :
    plannedOrder maxC opt ts = topo_order_with_hint ts := by
  obtain ⟨e, he⟩ := herr (buildInstance maxC ts)
  have hids : (identityDelta (buildInstance maxC ts)).order = ts.map Task.id := by
    simp [identityDelta, buildInstance]
  simp only [plannedOrder, he, hids, reorderByIds_self]

theorem run_one_ok (worker : Worker) (mem : MemorySnapshot) (t : Task) (r : Json)
    (hw : worker t = .ok r) :
    (run_one false noopBeforeTask noopAfterTask worker mem t).2.2 = .ok () := by
  simp [run_one, hw, noopBeforeTask, noopAfterTask]

theorem schedulerRun_ok (worker : Worker) (hw : ∀ t, ∃ r, worker t = .ok r)
    (ts : List Task) (mem : MemorySnapshot) :
    (schedulerRun false noopBeforeTask noopAfterTask worker ts mem).2.2 = .ok () := by
  induction ts generalizing mem with
  | nil => rfl
  | cons t rest ih =>
      obtain ⟨r, hr⟩ := hw t
      have h1 := run_one_ok worker mem t r hr
      simp only [schedulerRun, h1]
      exact ih _

/-- C4: an optimiser erroring on every call is caught inside the
orchestrator: the order handed to the scheduler is exactly the playbook's
input order after topological reconciliation, and (with succeeding
workers and the no-op policy) `execute_with_delegation` still returns
success — the optimiser error never propagates. -/
theorem optimizer_fallback (maxC : Nat) (opt : Optimizer)
    (herr : ∀ inst, ∃ e, opt inst = .error e)
    (ts : List Task) (envCap : Option Nat) (cpus : Nat) (worker : Worker)
    (hw : ∀ t, ∃ r, worker t = .ok r) (mem : MemorySnapshot) (nm : String) :
    plannedOrder maxC opt ts = topo_order_with_hint ts
    ∧ (execute_with_delegation maxC envCap cpus opt noopBeforeTask noopAfterTask worker
        false mem { name := nm, tasks := ts }).2.2 = .ok () := by
  refine ⟨plannedOrder_err maxC opt herr ts, ?_⟩
  have hs := schedulerRun_ok worker hw (plannedOrder maxC opt ts) mem
  simp only [execute_with_delegation, hs]

/-- An optimiser that always errors. -/
def errOptimizer : Optimizer := fun _ => .error "optimizer down"

/-- C4 witness: the fallback statement instantiated on a concrete
two-task playbook, the always-erroring optimiser and the trivial
worker. -/
theorem optimizer_fallback_witness :
    (∀ inst, ∃ e, errOptimizer inst = .error e)
    ∧ (∀ t, ∃ r, okWorker t = .ok r)
    ∧ (plannedOrder 1 errOptimizer [plainTask "1", plainTask "2"]
        = topo_order_with_hint [plainTask "1", plainTask "2"])
    ∧ (execute_with_delegation 1 none 4 errOptimizer noopBeforeTask noopAfterTask okWorker
        false memEmpty { name := "w", tasks := [plainTask "1", plainTask "2"] }).2.2 = .ok () := by
  have h := optimizer_fallback 1 errOptimizer (fun _ => ⟨"optimizer down", rfl⟩)
    [plainTask "1", plainTask "2"] none 4 okWorker (fun _ => ⟨Json.obj [], rfl⟩) memEmpty "w"
  exact ⟨fun _ => ⟨"optimizer down", rfl⟩, fun _ => ⟨Json.obj [], rfl⟩, h.1, h.2⟩

/-! ### C5 — the classical optimiser -/

/-- The priority preorder used by the ready-vector sort. -/
def prioRel (prio : List (String × Int)) (a b : String) : Prop :=
  ((alookup b prio).getD 0) ≤ ((alookup a prio).getD 0)

instance prioRelDecidable (prio : List (String × Int)) : DecidableRel (prioRel prio) :=
  fun a b =>
    inferInstanceAs (Decidable (((alookup b prio).getD 0) ≤ ((alookup a prio).getD 0)))

theorem sortReadyByPrio_sorted (prio : List (String × Int)) (l : List String) :
    List.Sorted (prioRel prio) (sortReadyByPrio prio l) := by
  haveI : IsTotal String (prioRel prio) := ⟨fun a b => le_total _ _⟩
  haveI : IsTrans String (prioRel prio) := ⟨fun a b c h1 h2 => le_trans h2 h1⟩
  exact List.sorted_insertionSort (prioRel prio) l

theorem sortReadyByPrio_eq_insertionSort (prio : List (String × Int)) (l : List String) :
    sortReadyByPrio prio l = List.insertionSort (prioRel prio) l := rfl

theorem sortReadyByPrio_sorted_eq (prio : List (String × Int)) (l : List String)
    (h : List.Sorted (prioRel prio) l) : sortReadyByPrio prio l = l :=
  List.Sorted.insertionSort_eq h

theorem sortReadyByPrio_perm (prio : List (String × Int)) (l : List String) :
    (sortReadyByPrio prio l).Perm l :=
  List.perm_insertionSort _ l

/-- In a dependency-free state the child fold of `classicalStep` pushes
nothing: every key is already ordered or ready, so the guard blocks. -/
theorem classicalStep_fold_nopush (n : String) (order2 : List String) :
    ∀ (l : List (String × List String)) (accDeps : List (String × List String))
      (ready0 : List String),
      (∀ kv ∈ l, kv.2 = ([] : List String)) →
      (∀ kv ∈ l, kv.1 ∈ order2 ∨ kv.1 ∈ ready0) →
      l.foldl
        (fun (acc : List (String × List String) × List String) kv =>
          let v2 := kv.2.filter (fun x => x ≠ n)
          let ready2 :=
            if v2.isEmpty ∧ ¬ order2.contains kv.1 ∧ ¬ acc.2.contains kv.1 then
              acc.2 ++ [kv.1]
            else acc.2
          (acc.1 ++ [(kv.1, v2)], ready2))
        (accDeps, ready0)
      = (accDeps ++ l.map (fun kv => (kv.1, kv.2.filter (fun x => x ≠ n))), ready0) := by
  intro l
  induction l with
  | nil => intro accDeps ready0 _ _; simp
  | cons kv rest ih =>
      intro accDeps ready0 hnil hcov
      simp only [List.foldl_cons]
      have hkv : kv.2 = [] := hnil kv (List.mem_cons_self _ _)
      have hc : kv.1 ∈ order2 ∨ kv.1 ∈ ready0 := hcov kv (List.mem_cons_self _ _)
      have hguard : ¬ ((kv.2.filter (fun x => x ≠ n)).isEmpty = true
          ∧ ¬ order2.contains kv.1 = true ∧ ¬ ready0.contains kv.1 = true) := by
        rcases hc with hmem | hmem
        · intro hconj
          exact hconj.2.1 (by
            show List.elem kv.1 order2 = true
            exact List.elem_iff.mpr hmem)
        · intro hconj
          exact hconj.2.2 (by
            show List.elem kv.1 ready0 = true
            exact List.elem_iff.mpr hmem)
      simp only [if_neg hguard]
      rw [ih (accDeps ++ [(kv.1, kv.2.filter fun x => x ≠ n)]) ready0
        (fun u hu => hnil u (List.mem_cons_of_mem _ hu))
        (fun u hu => hcov u (List.mem_cons_of_mem _ hu))]
      simp

/-- Dependency-free instances: the classical loop emits the ready vector
in its (stable, descending-priority) sorted order and drains
`remaining`. -/
theorem classicalLoop_nodeps (prio : List (String × Int)) :
    ∀ (fuel : Nat) (s : ClassicalState),
      s.ready.length ≤ fuel →
      (∀ kv ∈ s.deps, kv.2 = ([] : List String)) →
      (∀ kv ∈ s.deps, kv.1 ∈ s.order ∨ kv.1 ∈ s.ready) →
      (classicalLoop prio fuel s).order = s.order ++ sortReadyByPrio prio s.ready
      ∧ (classicalLoop prio fuel s).remaining
        = s.remaining.filter (fun x => ¬ x ∈ s.ready) := by
  intro fuel
  induction fuel with
  | zero =>
      intro s hlen _ _
      have hnilr : s.ready = [] := List.length_eq_zero.mp (Nat.le_zero.mp hlen)
      constructor
      · simp [classicalLoop, hnilr, sortReadyByPrio, List.insertionSort]
      · simp [classicalLoop, hnilr]
  | succ m ih =>
      intro s hlen hnil hcov
      by_cases hre : s.ready.isEmpty
      · have hnilr : s.ready = [] := List.isEmpty_iff.mp hre
        constructor
        · simp [classicalLoop, hre, hnilr, sortReadyByPrio, List.insertionSort]
        · simp [classicalLoop, hre, hnilr]
      · simp only [classicalLoop]
        rw [if_neg hre]
        cases hsort : sortReadyByPrio prio s.ready with
        | nil =>
            exfalso
            have hp := sortReadyByPrio_perm prio s.ready
            rw [hsort] at hp
            have hlen0 : s.ready.length = 0 := by simpa using hp.symm.length_eq
            exact hre (by
              rw [List.isEmpty_iff]
              exact List.length_eq_zero.mp hlen0)
        | cons n readyRest =>
            have hperm : (n :: readyRest).Perm s.ready := by
              rw [← hsort]; exact sortReadyByPrio_perm prio s.ready
            simp only [classicalStep, hsort]
            set depsWN := (match aremove n s.deps with
              | some pr => pr.2
              | none => s.deps) with hdWN
            have hdWNmem : ∀ kv ∈ depsWN, kv ∈ s.deps := by
              intro kv hkv
              rw [hdWN] at hkv
              cases hrm : aremove n s.deps with
              | none => rw [hrm] at hkv; exact hkv
              | some pr =>
                  rw [hrm] at hkv
                  obtain ⟨-, hsub, -⟩ := aremove_some n s.deps pr.1 pr.2 (by rw [hrm])
                  exact hsub.mem hkv
            have hfold := classicalStep_fold_nopush n (s.order ++ [n]) depsWN [] readyRest
              (fun kv hkv => hnil kv (hdWNmem kv hkv))
              (fun kv hkv => by
                rcases hcov kv (hdWNmem kv hkv) with h | h
                · exact Or.inl (List.mem_append_left _ h)
                · rcases List.mem_cons.mp (hperm.mem_iff.mpr h) with rfl | h2
                  · exact Or.inl (List.mem_append_right _ (List.mem_singleton.mpr rfl))
                  · exact Or.inr h2)
            rw [hfold]
            dsimp only
            have hsorted : List.Sorted (prioRel prio) (n :: readyRest) := by
              rw [← hsort]; exact sortReadyByPrio_sorted prio s.ready
            have hlen2 : readyRest.length ≤ m := by
              have := hperm.length_eq
              simp only [List.length_cons] at this
              omega
            have hstep := ih
              { deps := [] ++ depsWN.map (fun kv => (kv.1, kv.2.filter (fun x => x ≠ n)))
                ready := readyRest
                order := s.order ++ [n]
                remaining := s.remaining.filter (fun x => x ≠ n) }
              hlen2
              (by
                intro kv hkv
                simp only [List.nil_append, List.mem_map] at hkv
                obtain ⟨u, hu, rfl⟩ := hkv
                simp [hnil u (hdWNmem u hu)])
              (by
                intro kv hkv
                simp only [List.nil_append, List.mem_map] at hkv
                obtain ⟨u, hu, rfl⟩ := hkv
                rcases hcov u (hdWNmem u hu) with h | h
                · exact Or.inl (List.mem_append_left _ h)
                · rcases List.mem_cons.mp (hperm.mem_iff.mpr h) with he | h2
                  · exact Or.inl (List.mem_append_right _ (by simp [he]))
                  · exact Or.inr h2)
            obtain ⟨ho, hr⟩ := hstep
            constructor
            · rw [ho]
              simp only [List.append_assoc, List.singleton_append]
              rw [sortReadyByPrio_sorted_eq prio readyRest (List.Sorted.of_cons hsorted)]
            · rw [hr]
              rw [List.filter_filter]
              apply List.filter_congr
              intro x _
              have hmem : x ∈ s.ready ↔ x ∈ n :: readyRest := hperm.symm.mem_iff
              simp only [List.mem_cons] at hmem
              by_cases hx : x ∈ s.ready
              · rcases hmem.mp hx with rfl | h2
                · simp [hx]
                · simp [hx, h2]
              · have hnx := hmem.not.mp hx
                push_neg at hnx
                simp [hx, hnx.1, hnx.2]

/-- C5 (amended): the classical optimiser emits, at each step, the
greatest-priority ready task with ties broken by the order in which
tasks became ready (for a dependency-free instance: the instance's task
order under a stable descending-priority sort) — NOT by lexical id; on a
cycle the remaining tasks are appended in instance order; the confidence
is exactly 0.5; and on `A(0), B(5, deps A), C(10)` the order is
`C, A, B`. -/
theorem classical_optimizer_spec (inst : QuboInstance)
    (hdeps : ∀ t ∈ inst.tasks, t.depends_on = []) :
    (∀ inst2 d, classicalOptimize inst2 = .ok d → d.confidence = 1/2)
    ∧ topo_sort_with_priority inst
        = sortReadyByPrio (inst.tasks.map fun t => (t.id, t.priority))
            (inst.tasks.map fun t => t.id)
    ∧ topo_sort_with_priority instCAB = ["C", "A", "B"]
    ∧ topo_sort_with_priority instCyc = ["z", "x", "y"] := by
  refine ⟨?_, ?_, rfl, rfl⟩
  · intro inst2 d hd
    simp only [classicalOptimize, Except.ok.injEq] at hd
    rw [← hd]
  · have hdedup : ∀ t ∈ inst.tasks, t.depends_on.dedup = [] := by
      intro t ht; rw [hdeps t ht]; rfl
    have hfilter : (inst.tasks.map fun t => (t.id, t.depends_on.dedup)).filter
        (fun kv => kv.2.isEmpty) = inst.tasks.map fun t => (t.id, t.depends_on.dedup) := by
      apply List.filter_eq_self.mpr
      intro kv hkv
      simp only [List.mem_map] at hkv
      obtain ⟨t, ht, rfl⟩ := hkv
      simp [hdedup t ht]
    have hreadyinit : ((inst.tasks.map fun t => (t.id, t.depends_on.dedup)).filter
        (fun kv => kv.2.isEmpty)).map (fun kv => kv.1) = inst.tasks.map fun t => t.id := by
      rw [hfilter, List.map_map]
      rfl
    have hremselect : (inst.tasks.map fun t => (t.id, t.depends_on.dedup)).map
        (fun kv => kv.1) = inst.tasks.map fun t => t.id := by
      rw [List.map_map]
      rfl
    have hnil0 : ∀ kv ∈ (inst.tasks.map fun t => (t.id, t.depends_on.dedup)),
        kv.2 = ([] : List String) := by
      intro kv hkv
      simp only [List.mem_map] at hkv
      obtain ⟨t, ht, rfl⟩ := hkv
      exact hdedup t ht
    have hcov0 : ∀ kv ∈ (inst.tasks.map fun t => (t.id, t.depends_on.dedup)),
        kv.1 ∈ ([] : List String) ∨ kv.1 ∈ inst.tasks.map fun t => t.id := by
      intro kv hkv
      simp only [List.mem_map] at hkv
      obtain ⟨t, ht, rfl⟩ := hkv
      exact Or.inr (List.mem_map.mpr ⟨t, ht, rfl⟩)
    simp only [topo_sort_with_priority]
    rw [hreadyinit, hremselect]
    have hloop := classicalLoop_nodeps (inst.tasks.map fun t => (t.id, t.priority))
      (inst.tasks.length + 1)
      { deps := inst.tasks.map fun t => (t.id, t.depends_on.dedup)
        ready := inst.tasks.map fun t => t.id
        order := []
        remaining := inst.tasks.map fun t => t.id }
      (by simp)
      hnil0
      hcov0
    obtain ⟨ho, hr⟩ := hloop
    rw [ho, hr]
    have hnilrem : (inst.tasks.map fun t => t.id).filter
        (fun x => ¬ x ∈ inst.tasks.map fun t => t.id) = [] := by
      apply List.filter_eq_nil_iff.mpr
      intro x hx
      simp [hx]
    rw [hnilrem]
    simp

/-- C5 counterexample: on the instance with two equal-priority tasks in
instance order `b, a`, the classical optimiser emits `b` first — the tie
is NOT broken lexically by id (which would put `a` first). -/
theorem classical_optimizer_counterexample :
    topo_sort_with_priority instTie = ["b", "a"]
    ∧ topo_sort_with_priority instTie ≠ ["a", "b"] := by
  refine ⟨rfl, by decide⟩

/-- C5 witness: the amended statement instantiated on the dependency-free
tie instance. -/
theorem classical_optimizer_spec_witness :
    (∀ t ∈ instTie.tasks, t.depends_on = [])
    ∧ topo_sort_with_priority instTie
        = sortReadyByPrio (instTie.tasks.map fun t => (t.id, t.priority))
            (instTie.tasks.map fun t => t.id) :=
  ⟨by decide, (classical_optimizer_spec instTie (by decide)).2.1⟩

/-- C6 witness: comparing the classical optimiser with itself on the
concrete priority instance is a tie. -/
theorem ab_compare_winner_correct_witness :
    (compare classicalOptimize classicalOptimize instCAB).winner = "tie" :=
  (ab_compare_winner_correct classicalOptimize classicalOptimize instCAB).2.2.2
    classicalOptimize

/-- C9 witness: the cancellation statement instantiated on a concrete
single-task playbook (one Warn for its one task, success return, no
Progress events, memory untouched). -/
theorem execute_canceled_spec_witness :
    ((execute_with_delegation 1 none 4 classicalOptimize noopBeforeTask noopAfterTask okWorker
        true memEmpty { name := "w", tasks := [plainTask "1"] }).2.2 = .ok ())
    ∧ (((execute_with_delegation 1 none 4 classicalOptimize noopBeforeTask noopAfterTask okWorker
        true memEmpty { name := "w", tasks := [plainTask "1"] }).1.filter
      fun e => e.kind = .warn).length = 1) :=
  ⟨(execute_canceled_spec 1 none 4 classicalOptimize okWorker memEmpty
      { name := "w", tasks := [plainTask "1"] }).1,
   (execute_canceled_spec 1 none 4 classicalOptimize okWorker memEmpty
      { name := "w", tasks := [plainTask "1"] }).2.1⟩

/-! ### C1/C3 — topological reconciliation: supporting association-list
lemmas -/

theorem alookup_isSome_iff_mem (k : String) (l : List (String × α)) :
    (alookup k l).isSome ↔ k ∈ l.map Prod.fst := by
  induction l with
  | nil => simp [alookup]
  | cons p rest ih =>
      obtain ⟨k0, v0⟩ := p
      by_cases h : k0 = k
      · simp [alookup, h]
      · simp only [alookup, if_neg h, List.map_cons, List.mem_cons]
        rw [ih]
        constructor
        · exact Or.inr
        · rintro (rfl | hm)
          · exact absurd rfl h
          · exact hm

theorem alookup_some_mem (k : String) (l : List (String × α)) (v : α)
    (h : alookup k l = some v) : (k, v) ∈ l := by
  induction l with
  | nil => cases h
  | cons p rest ih =>
      obtain ⟨k0, v0⟩ := p
      by_cases hk : k0 = k
      · simp only [alookup, if_pos hk, Option.some.injEq] at h
        subst h
        subst hk
        exact List.mem_cons_self _ _
      · simp only [alookup, if_neg hk] at h
        exact List.mem_cons_of_mem _ (ih h)

theorem alookup_of_mem_nodup (k : String) (l : List (String × α)) (v : α)
    (hnd : (l.map Prod.fst).Nodup) (hm : (k, v) ∈ l) : alookup k l = some v := by
  induction l with
  | nil => cases hm
  | cons p rest ih =>
      obtain ⟨k0, v0⟩ := p
      simp only [List.map_cons, List.nodup_cons] at hnd
      rcases List.mem_cons.mp hm with he | hm2
      · rw [Prod.mk.injEq] at he
        obtain ⟨rfl, rfl⟩ := he
        simp [alookup]
      · have hk : k0 ≠ k := by
          intro he
          subst he
          exact hnd.1 (List.mem_map.mpr ⟨(k0, v), hm2, rfl⟩)
        simp only [alookup, if_neg hk]
        exact ih hnd.2 hm2

theorem aremove_perm (k : String) (l : List (String × α)) (v : α)
    (rest : List (String × α)) (h : aremove k l = some (v, rest)) :
    l.Perm ((k, v) :: rest) := by
  induction l generalizing rest with
  | nil => cases h
  | cons p tl ih =>
      obtain ⟨k0, v0⟩ := p
      by_cases hk : k0 = k
      · simp only [aremove, if_pos hk] at h
        rw [Option.some.injEq, Prod.mk.injEq] at h
        obtain ⟨rfl, rfl⟩ := h
        subst hk
        exact List.Perm.refl _
      · simp only [aremove, if_neg hk] at h
        cases hr : aremove k tl with
        | none => rw [hr] at h; cases h
        | some pr =>
            obtain ⟨v1, r1⟩ := pr
            rw [hr, Option.some.injEq, Prod.mk.injEq] at h
            obtain ⟨rfl, rfl⟩ := h
            exact ((ih r1 hr).cons (k0, v0)).trans (List.Perm.swap (k, v1) (k0, v0) r1)

theorem alookup_abump_self (k : String) (l : List (String × Nat)) (v : Nat)
    (h : alookup k l = some v) : alookup k (abump k l) = some (v + 1) := by
  induction l with
  | nil => cases h
  | cons p rest ih =>
      obtain ⟨k0, v0⟩ := p
      by_cases hk : k0 = k
      · simp only [alookup, if_pos hk, Option.some.injEq] at h
        subst h
        subst hk
        simp [abump, alookup]
      · simp only [alookup, if_neg hk] at h
        simp only [abump, if_neg hk, alookup, if_neg hk]
        exact ih h

theorem alookup_abump_other (k c : String) (l : List (String × Nat)) (hne : c ≠ k) :
    alookup c (abump k l) = alookup c l := by
  induction l with
  | nil =>
      have hkc : k ≠ c := fun h => hne (Eq.symm h)
      simp [abump, alookup, hkc]
  | cons p rest ih =>
      obtain ⟨k0, v0⟩ := p
      by_cases hk : k0 = k
      · subst hk
        have : k0 ≠ c := fun h => hne (Eq.symm h)
        simp [abump, alookup, this]
      · simp only [abump, if_neg hk, alookup]
        by_cases hc : k0 = c
        · simp [hc]
        · simp only [if_neg hc]
          exact ih

/-- Per-key count of a value in an edges map. -/
def countEdge (e : List (String × List String)) (d c : String) : Nat :=
  ((alookup d e).getD []).count c

theorem count_single (c x : String) : List.count c [x] = if c = x then 1 else 0 := by
  by_cases hcx : c = x
  · subst hcx; simp
  · rw [if_neg hcx]
    exact List.count_eq_zero.mpr (by simp [hcx])

theorem countEdge_apush (e : List (String × List String)) (k x d c : String) :
    countEdge (apush k x e) d c
      = countEdge e d c + (if d = k ∧ c = x then 1 else 0) := by
  induction e with
  | nil =>
      by_cases hdk : d = k
      · by_cases hcx : c = x <;>
          simp [apush, countEdge, alookup, hdk, hcx, count_single]
      · have hkd : ¬ k = d := fun h => hdk (Eq.symm h)
        by_cases hcx : c = x <;>
          simp [apush, countEdge, alookup, hdk, hkd, hcx, count_single]
  | cons p rest ih =>
      obtain ⟨k0, v0⟩ := p
      by_cases hk : k0 = k
      · subst hk
        by_cases hdk : d = k0
        · by_cases hcx : c = x <;>
            simp [apush, countEdge, alookup, hdk, hcx, List.count_append, count_single]
        · have hkd : ¬ k0 = d := fun h => hdk (Eq.symm h)
          by_cases hcx : c = x <;>
            simp [apush, countEdge, alookup, hdk, hkd, hcx, List.count_append, count_single]
      · by_cases hd : k0 = d
        · subst hd
          have hne : ¬ (k0 = k ∧ c = x) := fun hc => hk hc.1
          simp [apush, countEdge, alookup, hk, hne]
        · simp only [apush, if_neg hk, countEdge, alookup, if_neg hd]
          exact ih

theorem apush_keys (k : String) (x : β) (e : List (String × List β)) :
    (apush k x e).map Prod.fst = e.map Prod.fst
      ∨ (apush k x e).map Prod.fst = e.map Prod.fst ++ [k] := by
  induction e with
  | nil => simp [apush]
  | cons p rest ih =>
      obtain ⟨k0, v0⟩ := p
      by_cases hk : k0 = k
      · simp [apush, hk]
      · simp only [apush, if_neg hk, List.map_cons]
        rcases ih with h | h
        · exact Or.inl (by rw [h])
        · exact Or.inr (by rw [h]; rfl)

theorem aensure_lookup_none (k : String) (d : α) (l : List (String × α))
    (h : alookup k l = none) : aensure k d l = l ++ [(k, d)] := by
  simp [aensure, h]

theorem aensure_lookup_some (k : String) (d : α) (l : List (String × α))
    (h : (alookup k l).isSome) : aensure k d l = l := by
  cases hl : alookup k l with
  | none => rw [hl] at h; cases h
  | some v => simp [aensure, hl]

/-! ### C1/C3 — characterisation of `buildGraph` -/

/-- The dependency list of the task with a given id (`[]` for ids that
name no task). -/
def depsOfId (ts : List Task) (c : String) : List String :=
  match alookup c (ts.map fun t => (t.id, t)) with
  | some t => dependsOn t
  | none => []

theorem buildInner_split (id : String) (deps : List String) :
    ∀ (indeg : List (String × Nat)) (edges : List (String × List String)),
      deps.foldl (fun acc2 d => (abump id acc2.1, apush d id acc2.2)) (indeg, edges)
        = (deps.foldl (fun acc _ => abump id acc) indeg,
           deps.foldl (fun acc d => apush d id acc) edges) := by
  induction deps with
  | nil => intro indeg edges; rfl
  | cons d rest ih => intro indeg edges; simp only [List.foldl_cons]; exact ih _ _

theorem foldl_abump_self (id : String) (deps : List String) :
    ∀ (indeg : List (String × Nat)) (v : Nat), alookup id indeg = some v →
      alookup id (deps.foldl (fun acc _ => abump id acc) indeg) = some (v + deps.length) := by
  induction deps with
  | nil => intro indeg v h; simpa using h
  | cons d rest ih =>
      intro indeg v h
      simp only [List.foldl_cons, List.length_cons]
      have h2 := alookup_abump_self id indeg v h
      have h3 := ih (abump id indeg) (v + 1) h2
      rw [h3]
      congr 1
      omega

theorem foldl_abump_other (id c : String) (deps : List String) (hne : c ≠ id) :
    ∀ (indeg : List (String × Nat)),
      alookup c (deps.foldl (fun acc _ => abump id acc) indeg) = alookup c indeg := by
  induction deps with
  | nil => intro indeg; rfl
  | cons d rest ih =>
      intro indeg
      simp only [List.foldl_cons]
      rw [ih (abump id indeg), alookup_abump_other id c indeg hne]

theorem abump_keys (k : String) (l : List (String × Nat))
    (h : (alookup k l).isSome) : (abump k l).map Prod.fst = l.map Prod.fst := by
  induction l with
  | nil => simp [alookup] at h
  | cons p rest ih =>
      obtain ⟨k0, v0⟩ := p
      by_cases hk : k0 = k
      · simp [abump, hk]
      · simp only [alookup, if_neg hk] at h
        simp only [abump, if_neg hk, List.map_cons]
        rw [ih h]

theorem foldl_abump_keys (id : String) (deps : List String) :
    ∀ (indeg : List (String × Nat)), (alookup id indeg).isSome →
      (deps.foldl (fun acc _ => abump id acc) indeg).map Prod.fst = indeg.map Prod.fst := by
  induction deps with
  | nil => intro indeg _; rfl
  | cons d rest ih =>
      intro indeg h
      simp only [List.foldl_cons]
      rw [ih (abump id indeg) (by
        cases hl : alookup id indeg with
        | none => rw [hl] at h; cases h
        | some v => simp [alookup_abump_self id indeg v hl]), abump_keys id indeg h]

theorem foldl_apush_count (id : String) (deps : List String) :
    ∀ (edges : List (String × List String)) (d c : String),
      countEdge (deps.foldl (fun acc d2 => apush d2 id acc) edges) d c
        = countEdge edges d c + (if c = id then deps.count d else 0) := by
  induction deps with
  | nil => intro edges d c; simp
  | cons d0 rest ih =>
      intro edges d c
      simp only [List.foldl_cons]
      rw [ih (apush d0 id edges) d c, countEdge_apush edges d0 id d c]
      by_cases hcid : c = id
      · subst hcid
        by_cases hdd : d = d0
        · subst hdd
          simp [List.count_cons]
          omega
        · have h2 : ¬ (d0 = d) := fun h => hdd (Eq.symm h)
          simp [List.count_cons, hdd, h2]
      · simp [hcid]

theorem aensure_keys_none (k : String) (d : α) (l : List (String × α))
    (h : alookup k l = none) :
    (aensure k d l).map Prod.fst = l.map Prod.fst ++ [k] := by
  rw [aensure_lookup_none k d l h]
  simp

/-- Lookup characterisation of the in-degree map `buildGraph` builds:
each task id maps to the length of its `depends_on` list. -/
theorem buildGraph_fold_indeg (l : List (String × Task)) :
    ∀ (indeg0 : List (String × Nat)) (edges0 : List (String × List String)),
      (l.map Prod.fst).Nodup →
      (∀ p ∈ l, alookup p.1 indeg0 = none) →
      (∀ c, alookup c
          (l.foldl
            (fun acc p =>
              let indeg := aensure p.1 0 acc.1
              (dependsOn p.2).foldl
                (fun acc2 d => (abump p.1 acc2.1, apush d p.1 acc2.2))
                (indeg, acc.2))
            (indeg0, edges0)).1
        = match alookup c l with
          | some t => some (dependsOn t).length
          | none => alookup c indeg0) := by
  induction l with
  | nil => intro indeg0 edges0 _ _ c; simp [alookup]
  | cons p rest ih =>
      intro indeg0 edges0 hnd habs c
      obtain ⟨tid, t⟩ := p
      simp only [List.map_cons, List.nodup_cons] at hnd
      have hid0 : alookup tid indeg0 = none := habs (tid, t) (List.mem_cons_self _ _)
      simp only [List.foldl_cons]
      rw [buildInner_split]
      have hens : aensure tid 0 indeg0 = indeg0 ++ [(tid, 0)] :=
        aensure_lookup_none tid 0 indeg0 hid0
      have hlook : alookup tid (aensure tid 0 indeg0) = some 0 := by
        rw [hens, alookup_append, hid0]
        simp [alookup]
      have habs2 : ∀ q ∈ rest,
          alookup q.1 ((dependsOn t).foldl (fun acc _ => abump tid acc)
            (aensure tid 0 indeg0)) = none := by
        intro q hq
        have hqne : q.1 ≠ tid := by
          intro he
          exact hnd.1 (he ▸ List.mem_map.mpr ⟨q, hq, rfl⟩)
        have hqne2 : ¬ (tid = q.1) := fun h => hqne (Eq.symm h)
        rw [foldl_abump_other tid q.1 (dependsOn t) hqne, hens, alookup_append,
          habs q (List.mem_cons_of_mem _ hq)]
        simp [alookup, hqne2]
      rw [ih _ _ hnd.2 habs2 c]
      by_cases hc : c = tid
      · have hcrest : alookup c rest = none := by
          apply alookup_not_mem
          intro hm
          rw [hc] at hm
          exact hnd.1 hm
        rw [hcrest]
        simp only [alookup, if_pos (Eq.symm hc)]
        rw [hc]
        rw [foldl_abump_self tid (dependsOn t) (aensure tid 0 indeg0) 0 hlook]
        simp
      · have hcid : ¬ (tid = c) := fun h => hc (Eq.symm h)
        cases hr : alookup c rest with
        | some u => simp [alookup, hcid, hr]
        | none =>
            simp only [alookup, if_neg hcid, hr]
            rw [foldl_abump_other tid c (dependsOn t) hc, hens, alookup_append]
            cases h0 : alookup c indeg0 with
            | some v => simp
            | none => simp [alookup, hcid]

theorem buildGraph_fold_edges (l : List (String × Task)) :
    ∀ (indeg0 : List (String × Nat)) (edges0 : List (String × List String)),
      (l.map Prod.fst).Nodup →
      ∀ d c, countEdge
          (l.foldl
            (fun acc p =>
              let indeg := aensure p.1 0 acc.1
              (dependsOn p.2).foldl
                (fun acc2 d => (abump p.1 acc2.1, apush d p.1 acc2.2))
                (indeg, acc.2))
            (indeg0, edges0)).2 d c
        = countEdge edges0 d c
          + (match alookup c l with
             | some t => (dependsOn t).count d
             | none => 0) := by
  induction l with
  | nil => intro indeg0 edges0 _ d c; simp [alookup]
  | cons p rest ih =>
      intro indeg0 edges0 hnd d c
      obtain ⟨tid, t⟩ := p
      simp only [List.map_cons, List.nodup_cons] at hnd
      simp only [List.foldl_cons]
      rw [buildInner_split]
      rw [ih _ _ hnd.2 d c]
      rw [foldl_apush_count tid (dependsOn t) edges0 d c]
      by_cases hc : c = tid
      · have hcrest : alookup c rest = none := by
          apply alookup_not_mem
          intro hm
          rw [hc] at hm
          exact hnd.1 hm
        rw [hcrest]
        simp only [alookup, if_pos (Eq.symm hc), if_pos hc]
        omega
      · have hcid : ¬ (tid = c) := fun h => hc (Eq.symm h)
        simp only [alookup, if_neg hcid, if_neg hc]
        omega

theorem buildGraph_fold_keys (l : List (String × Task)) :
    ∀ (indeg0 : List (String × Nat)) (edges0 : List (String × List String)),
      (∀ p ∈ l, alookup p.1 indeg0 = none) →
      (l.map Prod.fst).Nodup →
      (l.foldl
        (fun acc p =>
          let indeg := aensure p.1 0 acc.1
          (dependsOn p.2).foldl
            (fun acc2 d => (abump p.1 acc2.1, apush d p.1 acc2.2))
            (indeg, acc.2))
        (indeg0, edges0)).1.map Prod.fst
      = indeg0.map Prod.fst ++ l.map Prod.fst := by
  induction l with
  | nil => intro indeg0 edges0 _ _; simp
  | cons p rest ih =>
      intro indeg0 edges0 habs hnd
      obtain ⟨tid, t⟩ := p
      simp only [List.map_cons, List.nodup_cons] at hnd
      have hid0 : alookup tid indeg0 = none := habs (tid, t) (List.mem_cons_self _ _)
      simp only [List.foldl_cons]
      rw [buildInner_split]
      have hens : aensure tid 0 indeg0 = indeg0 ++ [(tid, 0)] :=
        aensure_lookup_none tid 0 indeg0 hid0
      have hlook : alookup tid (aensure tid 0 indeg0) = some 0 := by
        rw [hens, alookup_append, hid0]
        simp [alookup]
      have habs2 : ∀ q ∈ rest,
          alookup q.1 ((dependsOn t).foldl (fun acc _ => abump tid acc)
            (aensure tid 0 indeg0)) = none := by
        intro q hq
        have hqne : q.1 ≠ tid := by
          intro he
          exact hnd.1 (he ▸ List.mem_map.mpr ⟨q, hq, rfl⟩)
        have hqne2 : ¬ (tid = q.1) := fun h => hqne (Eq.symm h)
        rw [foldl_abump_other tid q.1 (dependsOn t) hqne, hens, alookup_append,
          habs q (List.mem_cons_of_mem _ hq)]
        simp [alookup, hqne2]
      rw [ih _ _ habs2 hnd.2]
      rw [foldl_abump_keys tid (dependsOn t) (aensure tid 0 indeg0) (by simp [hlook])]
      rw [hens]
      simp

/-- Packaged: lookup in the built in-degree map. -/
theorem buildGraph_indeg_lookup (ts : List Task) (hnd : (ts.map Task.id).Nodup)
    (c : String) :
    alookup c (buildGraph (ts.map fun t => (t.id, t))).1
      = match alookup c (ts.map fun t => (t.id, t)) with
        | some t => some (dependsOn t).length
        | none => none := by
  have h := buildGraph_fold_indeg (ts.map fun t => (t.id, t)) [] []
    (by rw [List.map_map]; exact hnd)
    (by intro p _; rfl) c
  simpa [buildGraph, alookup] using h

/-- Packaged: per-child count in the built adjacency map. -/
theorem buildGraph_edge_count (ts : List Task) (hnd : (ts.map Task.id).Nodup)
    (d c : String) :
    countEdge (buildGraph (ts.map fun t => (t.id, t))).2 d c
      = (depsOfId ts c).count d := by
  have h := buildGraph_fold_edges (ts.map fun t => (t.id, t)) [] []
    (by rw [List.map_map]; exact hnd) d c
  simp only [buildGraph] at h ⊢
  rw [h]
  simp only [depsOfId, countEdge, alookup]
  cases alookup c (ts.map fun t => (t.id, t)) <;> simp

/-- Packaged: the keys of the built in-degree map are the task ids. -/
theorem buildGraph_indeg_keys (ts : List Task) (hnd : (ts.map Task.id).Nodup) :
    (buildGraph (ts.map fun t => (t.id, t))).1.map Prod.fst = ts.map Task.id := by
  have h := buildGraph_fold_keys (ts.map fun t => (t.id, t)) [] []
    (by intro p _; rfl)
    (by rw [List.map_map]; exact hnd)
  simp only [buildGraph] at h ⊢
  rw [h]
  simp [List.map_map]

theorem apush_keys_nodup (k : String) (x : β) (e : List (String × List β))
    (h : (e.map Prod.fst).Nodup) : ((apush k x e).map Prod.fst).Nodup := by
  induction e with
  | nil => simp [apush]
  | cons p rest ih =>
      obtain ⟨k0, v0⟩ := p
      simp only [List.map_cons, List.nodup_cons] at h
      by_cases hk : k0 = k
      · simp only [apush, if_pos hk, List.map_cons, List.nodup_cons]
        exact ⟨h.1, h.2⟩
      · simp only [apush, if_neg hk, List.map_cons, List.nodup_cons]
        refine ⟨?_, ih h.2⟩
        rcases apush_keys k x rest with hkeys | hkeys
        · rw [hkeys]; exact h.1
        · rw [hkeys]
          simp only [List.mem_append, List.mem_singleton]
          rintro (hm | rfl)
          · exact h.1 hm
          · exact hk rfl

theorem foldl_apush_keys_nodup (tid : String) (deps : List String) :
    ∀ (edges : List (String × List String)),
      ((edges.map Prod.fst).Nodup) →
      (((deps.foldl (fun acc d => apush d tid acc) edges).map Prod.fst).Nodup) := by
  induction deps with
  | nil => intro edges h; exact h
  | cons d rest ih =>
      intro edges h
      simp only [List.foldl_cons]
      exact ih _ (apush_keys_nodup d tid edges h)

theorem buildGraph_fold_edges_nodup (l : List (String × Task)) :
    ∀ (indeg0 : List (String × Nat)) (edges0 : List (String × List String)),
      ((edges0.map Prod.fst).Nodup) →
      (((l.foldl
        (fun acc p =>
          let indeg := aensure p.1 0 acc.1
          (dependsOn p.2).foldl
            (fun acc2 d => (abump p.1 acc2.1, apush d p.1 acc2.2))
            (indeg, acc.2))
        (indeg0, edges0)).2.map Prod.fst).Nodup) := by
  induction l with
  | nil => intro indeg0 edges0 h; exact h
  | cons p rest ih =>
      intro indeg0 edges0 h
      obtain ⟨tid, t⟩ := p
      simp only [List.foldl_cons]
      rw [buildInner_split]
      exact ih _ _ (foldl_apush_keys_nodup tid (dependsOn t) edges0 h)

/-- The built adjacency map has unique keys. -/
theorem buildGraph_edges_nodup (byId : List (String × Task)) :
    ((buildGraph byId).2.map Prod.fst).Nodup := by
  have h := buildGraph_fold_edges_nodup byId [] [] (by simp)
  simpa [buildGraph] using h

/-- Removing the only entry of a key from a unique-key map leaves no
entry for it. -/
theorem aremove_nodup_none (k : String) (l : List (String × α)) (v : α)
    (rest : List (String × α)) (hnd : (l.map Prod.fst).Nodup)
    (h : aremove k l = some (v, rest)) : alookup k rest = none := by
  induction l generalizing rest with
  | nil => cases h
  | cons p tl ih =>
      obtain ⟨k0, v0⟩ := p
      simp only [List.map_cons, List.nodup_cons] at hnd
      by_cases hk : k0 = k
      · simp only [aremove, if_pos hk] at h
        rw [Option.some.injEq, Prod.mk.injEq] at h
        obtain ⟨rfl, rfl⟩ := h
        apply alookup_not_mem
        rw [← hk]
        exact hnd.1
      · simp only [aremove, if_neg hk] at h
        cases hr : aremove k tl with
        | none => rw [hr] at h; cases h
        | some pr =>
            obtain ⟨v1, r1⟩ := pr
            rw [hr, Option.some.injEq, Prod.mk.injEq] at h
            obtain ⟨rfl, rfl⟩ := h
            simp only [alookup, if_neg hk]
            exact ih r1 hnd.2 hr

/-! ### C1/C3 — the Kahn loop invariant -/

/-- The number of still-unemitted dependencies of `c` (with
multiplicity). -/
def unem (ts : List Task) (outIds : List String) (c : String) : Nat :=
  ((depsOfId ts c).filter (fun d => ¬ d ∈ outIds)).length

/-- Invariant of the Kahn loop in `topo_order_with_hint`. -/
structure KahnInv (ts : List Task) (s : KahnState) : Prop where
  readyTasks : ∀ c ∈ s.ready, c ∈ ts.map Task.id
  indegKeys : ∀ c, (alookup c s.indeg).isSome ↔ c ∈ ts.map Task.id
  indegBound : ∀ c n, alookup c s.indeg = some n → unem ts (s.out.map Task.id) c ≤ n
  edgesSub : ∀ d, alookup d s.edges
      = alookup d (buildGraph (ts.map fun t => (t.id, t))).2 ∨ d ∈ s.out.map Task.id
  edgesSubL : s.edges.Sublist (buildGraph (ts.map fun t => (t.id, t))).2
  edgesEmitted : ∀ d ∈ s.out.map Task.id, alookup d s.edges = none
  byIdCover : ∀ c ∈ ts.map Task.id, (alookup c s.byId).isSome ∨ c ∈ s.out.map Task.id
  byIdDisj : ∀ c, (alookup c s.byId).isSome → ¬ c ∈ s.out.map Task.id
  byIdSub : s.byId.Sublist (ts.map fun t => (t.id, t))
  outNodup : (s.out.map Task.id).Nodup
  outMem : ∀ t ∈ s.out, t ∈ ts
  readyDeps : ∀ c ∈ s.ready, ∀ d ∈ depsOfId ts c, d ∈ s.out.map Task.id
  permInv : ((s.out.map fun t => (t.id, t)) ++ s.byId).Perm (ts.map fun t => (t.id, t))

theorem mem_sortIds (c : String) (l : List String) : c ∈ sortIds l ↔ c ∈ l :=
  (List.perm_insertionSort _ l).mem_iff

theorem alookup_aset_isSome (k c : String) (v : α) (l : List (String × α)) :
    (alookup c (aset k v l)).isSome = (alookup c l).isSome := by
  by_cases hc : c = k
  · subst hc
    cases hl : alookup c l with
    | none => rw [aset_absent c v l hl, hl]
    | some w =>
        have h1 : alookup c (aset c v l) = some v := alookup_aset_self c v l (by simp [hl])
        simp [h1, hl]
  · rw [alookup_aset_other k c v l hc]

/-- The child-notification fold of one Kahn iteration: every in-degree
stays an upper bound on the new unemitted-dependency count, keys are
unchanged, and every id it adds to `ready` has all dependencies
emitted. -/
theorem notifyChild_fold (ts : List Task) (outIds2 : List String) :
    ∀ (ch : List String) (indeg : List (String × Nat)) (ready : List String),
      (∀ c n, alookup c indeg = some n → unem ts outIds2 c + ch.count c ≤ n) →
      (∀ c n, alookup c (ch.foldl notifyChild (indeg, ready)).1 = some n →
        unem ts outIds2 c ≤ n)
      ∧ (∀ c, (alookup c (ch.foldl notifyChild (indeg, ready)).1).isSome
          = (alookup c indeg).isSome)
      ∧ (∀ c ∈ (ch.foldl notifyChild (indeg, ready)).2,
          c ∈ ready ∨ ((alookup c indeg).isSome ∧ unem ts outIds2 c = 0)) := by
  intro ch
  induction ch with
  | nil =>
      intro indeg ready hJ
      refine ⟨?_, fun c => rfl, fun c hc => Or.inl hc⟩
      intro c n h
      have := hJ c n h
      simp only [List.count_nil] at this
      omega
  | cons c0 rest ih =>
      intro indeg ready hJ
      simp only [List.foldl_cons]
      cases h0 : alookup c0 indeg with
      | none =>
          have hstep : notifyChild (indeg, ready) c0 = (indeg, ready) := by
            simp [notifyChild, h0]
          rw [hstep]
          apply ih indeg ready
          intro c n h
          have := hJ c n h
          have hcount : rest.count c ≤ (c0 :: rest).count c := by
            simp [List.count_cons]
          omega
      | some e =>
          have he1 : 1 ≤ e := by
            have := hJ c0 e h0
            have hcnt : 0 < (c0 :: rest).count c0 := by
              simp [List.count_cons]
            omega
          have hstep : notifyChild (indeg, ready) c0 =
              (aset c0 (e - 1) indeg,
               if e - 1 = 0 then sortIds (ready ++ [c0]) else ready) := by
            simp only [notifyChild, h0]
            by_cases hz : e - 1 = 0 <;> simp [hz]
          rw [hstep]
          have hJ2 : ∀ c n, alookup c (aset c0 (e - 1) indeg) = some n →
              unem ts outIds2 c + rest.count c ≤ n := by
            intro c n h
            by_cases hc : c = c0
            · subst hc
              rw [alookup_aset_self c (e - 1) indeg (by simp [h0])] at h
              rw [Option.some.injEq] at h
              subst h
              have := hJ c e h0
              simp [List.count_cons] at this
              omega
            · rw [alookup_aset_other c0 c (e - 1) indeg hc] at h
              have := hJ c n h
              simp [List.count_cons, hc] at this
              omega
          by_cases hz : e - 1 = 0
          · rw [if_pos hz]
            obtain ⟨g1, g2, g3⟩ := ih (aset c0 (e - 1) indeg) (sortIds (ready ++ [c0])) hJ2
            refine ⟨g1, ?_, ?_⟩
            · intro c
              rw [g2 c, alookup_aset_isSome]
            · intro c hc
              rcases g3 c hc with hm | ⟨hs, hu⟩
              · rw [mem_sortIds] at hm
                rcases List.mem_append.mp hm with hm2 | hm2
                · exact Or.inl hm2
                · rw [List.mem_singleton] at hm2
                  subst hm2
                  refine Or.inr ⟨by simp [h0], ?_⟩
                  have := hJ2 c (e - 1) (alookup_aset_self c (e - 1) indeg (by simp [h0]))
                  omega
              · rw [alookup_aset_isSome] at hs
                exact Or.inr ⟨hs, hu⟩
          · rw [if_neg hz]
            obtain ⟨g1, g2, g3⟩ := ih (aset c0 (e - 1) indeg) ready hJ2
            refine ⟨g1, ?_, ?_⟩
            · intro c
              rw [g2 c, alookup_aset_isSome]
            · intro c hc
              rcases g3 c hc with hm | ⟨hs, hu⟩
              · exact Or.inl hm
              · rw [alookup_aset_isSome] at hs
                exact Or.inr ⟨hs, hu⟩

theorem nodup_concat (l : List α) (a : α) (hl : l.Nodup) (ha : ¬ a ∈ l) :
    (l ++ [a]).Nodup := by
  rw [List.nodup_append]
  exact ⟨hl, List.nodup_singleton a, by
    intro x hx
    simp only [List.mem_singleton]
    intro he
    subst he
    exact ha hx⟩

theorem depsOfId_of_mem (ts : List Task) (hnd : (ts.map Task.id).Nodup)
    (t : Task) (ht : t ∈ ts) : depsOfId ts t.id = dependsOn t := by
  unfold depsOfId
  rw [alookup_of_mem_nodup t.id (ts.map fun u => (u.id, u)) t
    (by rw [List.map_map]; exact hnd) (List.mem_map.mpr ⟨t, ht, rfl⟩)]

theorem filter_emit_split (outIds : List String) (id2 : String)
    (hid : ¬ id2 ∈ outIds) (l : List String) :
    (l.filter (fun d => ¬ d ∈ outIds)).length
      = (l.filter (fun d => ¬ d ∈ outIds ++ [id2])).length + l.count id2 := by
  induction l with
  | nil => simp
  | cons d rest ih =>
      by_cases hd : d = id2
      · subst hd
        have h1 : (d :: rest).filter (fun x => ¬ x ∈ outIds)
            = d :: rest.filter (fun x => ¬ x ∈ outIds) := by
          rw [List.filter_cons]
          simp [hid]
        have h2 : (d :: rest).filter (fun x => ¬ x ∈ outIds ++ [d])
            = rest.filter (fun x => ¬ x ∈ outIds ++ [d]) := by
          rw [List.filter_cons]
          simp
        have h3 : (d :: rest).count d = rest.count d + 1 := by
          rw [List.count_cons]
          simp
        rw [h1, h2, h3, List.length_cons]
        omega
      · have hdne : ¬ (id2 = d) := fun h => hd (Eq.symm h)
        have h3 : (d :: rest).count id2 = rest.count id2 := by
          rw [List.count_cons]
          simp [hdne, hd]
        by_cases hdo : d ∈ outIds
        · have h1 : (d :: rest).filter (fun x => ¬ x ∈ outIds)
              = rest.filter (fun x => ¬ x ∈ outIds) := by
            rw [List.filter_cons]
            simp [hdo]
          have h2 : (d :: rest).filter (fun x => ¬ x ∈ outIds ++ [id2])
              = rest.filter (fun x => ¬ x ∈ outIds ++ [id2]) := by
            rw [List.filter_cons]
            simp [hdo]
          rw [h1, h2, h3]
          exact ih
        · have h1 : (d :: rest).filter (fun x => ¬ x ∈ outIds)
              = d :: rest.filter (fun x => ¬ x ∈ outIds) := by
            rw [List.filter_cons]
            simp [hdo]
          have h2 : (d :: rest).filter (fun x => ¬ x ∈ outIds ++ [id2])
              = d :: rest.filter (fun x => ¬ x ∈ outIds ++ [id2]) := by
            rw [List.filter_cons]
            simp [hdo, hd]
          rw [h1, h2, h3, List.length_cons, List.length_cons]
          omega

theorem unem_emit (ts : List Task) (outIds : List String) (id2 : String)
    (hid : ¬ id2 ∈ outIds) (c : String) :
    unem ts outIds c = unem ts (outIds ++ [id2]) c + (depsOfId ts c).count id2 :=
  filter_emit_split outIds id2 hid (depsOfId ts c)

theorem unem_zero_mem (ts : List Task) (outIds : List String) (c : String)
    (h : unem ts outIds c = 0) : ∀ d ∈ depsOfId ts c, d ∈ outIds := by
  intro d hd
  unfold unem at h
  rw [List.length_eq_zero] at h
  by_contra hnmem
  have : d ∈ (depsOfId ts c).filter (fun d => ¬ d ∈ outIds) :=
    List.mem_filter.mpr ⟨hd, by simpa using hnmem⟩
  rw [h] at this
  cases this

theorem byId0_keys (ts : List Task) :
    ((ts.map fun t => (t.id, t)).map Prod.fst) = ts.map Task.id := by
  rw [List.map_map]
  rfl

theorem byId_keys_nodup (ts : List Task) (hnd : (ts.map Task.id).Nodup)
    (l : List (String × Task)) (h : l.Sublist (ts.map fun t => (t.id, t))) :
    (l.map Prod.fst).Nodup :=
  List.Nodup.sublist (h.map Prod.fst) (by rw [byId0_keys]; exact hnd)

theorem edges_keys_nodup (ts : List Task) (l : List (String × List String))
    (h : l.Sublist (buildGraph (ts.map fun t => (t.id, t))).2) :
    (l.map Prod.fst).Nodup :=
  List.Nodup.sublist (h.map Prod.fst) (buildGraph_edges_nodup _)

theorem pair_mem_byId0 (ts : List Task) (k : String) (t : Task)
    (h : (k, t) ∈ (ts.map fun u => (u.id, u))) : t ∈ ts ∧ t.id = k := by
  rw [List.mem_map] at h
  obtain ⟨u, hu, he⟩ := h
  rw [Prod.mk.injEq] at he
  obtain ⟨he1, he2⟩ := he
  subst he2
  exact ⟨hu, he1⟩

/-- One Kahn iteration preserves the invariant, and any task it emits has
all dependencies emitted before it. -/
theorem kahnStep_inv (ts : List Task) (hnd : (ts.map Task.id).Nodup)
    (s : KahnState) (inv : KahnInv ts s) (id2 : String)
    (hidts : id2 ∈ ts.map Task.id)
    (hiddeps : ∀ d ∈ depsOfId ts id2, d ∈ s.out.map Task.id) :
    KahnInv ts (kahnStep s id2)
    ∧ ((kahnStep s id2).out = s.out
       ∨ ∃ t, (kahnStep s id2).out = s.out ++ [t] ∧ t ∈ ts ∧ t.id = id2
           ∧ ∀ d ∈ dependsOn t, d ∈ s.out.map Task.id) := by
  unfold kahnStep
  cases hb : aremove id2 s.byId with
  | some pr =>
      obtain ⟨t, restB⟩ := pr
      obtain ⟨hbl, hbsub, hbother⟩ := aremove_some id2 s.byId t restB hb
      have hpair : t ∈ ts ∧ t.id = id2 :=
        pair_mem_byId0 ts id2 t (inv.byIdSub.subset (alookup_some_mem _ _ _ hbl))
      have hnotout : ¬ id2 ∈ s.out.map Task.id := inv.byIdDisj id2 (by simp [hbl])
      have houtIds : (s.out ++ [t]).map Task.id = s.out.map Task.id ++ [id2] := by
        rw [List.map_append]
        simp [hpair.2]
      have hBnodup := byId_keys_nodup ts hnd s.byId inv.byIdSub
      have hBnone : alookup id2 restB = none :=
        aremove_nodup_none id2 s.byId t restB hBnodup hb
      have hdep : depsOfId ts id2 = dependsOn t := by
        rw [← hpair.2]
        exact depsOfId_of_mem ts hnd t hpair.1
      have hpermNew : ((s.out ++ [t]).map (fun u => (u.id, u)) ++ restB).Perm
          (ts.map fun u => (u.id, u)) := by
        have hmap : (s.out ++ [t]).map (fun u => (u.id, u))
            = s.out.map (fun u => (u.id, u)) ++ [(id2, t)] := by
          rw [List.map_append]
          simp [hpair.2]
        rw [hmap, List.append_assoc]
        exact (List.Perm.append_left _
          (aremove_perm id2 s.byId t restB hb).symm).trans inv.permInv
      have hCover : ∀ c ∈ ts.map Task.id,
          (alookup c restB).isSome ∨ c ∈ (s.out ++ [t]).map Task.id := by
        intro c hc
        by_cases hci : c = id2
        · subst hci
          exact Or.inr (by rw [houtIds]; exact List.mem_append_right _ (by simp))
        · rw [hbother c hci]
          rcases inv.byIdCover c hc with hs | ho
          · exact Or.inl hs
          · exact Or.inr (by rw [houtIds]; exact List.mem_append_left _ ho)
      have hDisj : ∀ c, (alookup c restB).isSome → ¬ c ∈ (s.out ++ [t]).map Task.id := by
        intro c hs
        by_cases hci : c = id2
        · subst hci
          rw [hBnone] at hs
          cases hs
        · rw [hbother c hci] at hs
          have hold := inv.byIdDisj c hs
          rw [houtIds]
          intro hm
          rcases List.mem_append.mp hm with hm2 | hm2
          · exact hold hm2
          · exact hci (List.mem_singleton.mp hm2)
      have hOutNodup : ((s.out ++ [t]).map Task.id).Nodup := by
        rw [houtIds]
        exact nodup_concat _ _ inv.outNodup hnotout
      have hOutMem : ∀ u ∈ s.out ++ [t], u ∈ ts := by
        intro u hu
        rcases List.mem_append.mp hu with hm | hm
        · exact inv.outMem u hm
        · rw [List.mem_singleton] at hm
          subst hm
          exact hpair.1
      have hEmitDeps : ∀ d ∈ dependsOn t, d ∈ s.out.map Task.id := by
        intro d hd
        exact hiddeps d (by rw [hdep]; exact hd)
      cases he : aremove id2 s.edges with
      | some prE =>
          obtain ⟨ch, edges2⟩ := prE
          obtain ⟨hel, hesub, heother⟩ := aremove_some id2 s.edges ch edges2 he
          have hEnodup := edges_keys_nodup ts s.edges inv.edgesSubL
          have hEnone : alookup id2 edges2 = none :=
            aremove_nodup_none id2 s.edges ch edges2 hEnodup he
          have hchData : alookup id2 (buildGraph (ts.map fun u => (u.id, u))).2 = some ch := by
            rcases inv.edgesSub id2 with hl | hr
            · rw [← hl]; exact hel
            · exact absurd hr hnotout
          have hcount : ∀ c, ch.count c = (depsOfId ts c).count id2 := by
            intro c
            have hbc := buildGraph_edge_count ts hnd id2 c
            rw [countEdge, hchData] at hbc
            simpa using hbc
          have hJ : ∀ c n, alookup c s.indeg = some n →
              unem ts (s.out.map Task.id ++ [id2]) c + ch.count c ≤ n := by
            intro c n h
            have hb2 := inv.indegBound c n h
            have he2 := unem_emit ts (s.out.map Task.id) id2 hnotout c
            rw [hcount c]
            omega
          obtain ⟨g1, g2, g3⟩ := notifyChild_fold ts (s.out.map Task.id ++ [id2])
            ch s.indeg s.ready hJ
          refine ⟨⟨?_, ?_, ?_, ?_, ?_, ?_, hCover, hDisj,
            hbsub.trans inv.byIdSub, hOutNodup, hOutMem, ?_, hpermNew⟩,
            Or.inr ⟨t, rfl, hpair.1, hpair.2, hEmitDeps⟩⟩
          · intro c hc
            rcases g3 c hc with hm | ⟨hs, _⟩
            · exact inv.readyTasks c hm
            · exact (inv.indegKeys c).mp hs
          · intro c
            rw [g2 c]
            exact inv.indegKeys c
          · intro c n h
            have := g1 c n h
            rw [houtIds]
            exact this
          · intro d
            by_cases hdi : d = id2
            · subst hdi
              exact Or.inr (by rw [houtIds]; exact List.mem_append_right _ (by simp))
            · rw [heother d hdi]
              rcases inv.edgesSub d with hl | hr
              · exact Or.inl hl
              · exact Or.inr (by rw [houtIds]; exact List.mem_append_left _ hr)
          · exact hesub.trans inv.edgesSubL
          · intro d hd
            rw [houtIds] at hd
            rcases List.mem_append.mp hd with hm | hm
            · have hne : d ≠ id2 := by
                intro he2
                subst he2
                exact hnotout hm
              rw [heother d hne]
              exact inv.edgesEmitted d hm
            · rw [List.mem_singleton] at hm
              subst hm
              exact hEnone
          · intro c hc d hd
            rcases g3 c hc with hm | ⟨_, hu0⟩
            · have := inv.readyDeps c hm d hd
              rw [houtIds]
              exact List.mem_append_left _ this
            · have := unem_zero_mem ts (s.out.map Task.id ++ [id2]) c hu0 d hd
              rw [houtIds]
              exact this
      | none =>
          have hEnone : alookup id2 s.edges = none := (aremove_none id2 s.edges).mp he
          refine ⟨⟨inv.readyTasks, inv.indegKeys, ?_, ?_, inv.edgesSubL, ?_, hCover, hDisj,
            hbsub.trans inv.byIdSub, hOutNodup, hOutMem, ?_, hpermNew⟩,
            Or.inr ⟨t, rfl, hpair.1, hpair.2, hEmitDeps⟩⟩
          · intro c n h
            have hb2 := inv.indegBound c n h
            have he2 := unem_emit ts (s.out.map Task.id) id2 hnotout c
            rw [houtIds]
            omega
          · intro d
            rcases inv.edgesSub d with hl | hr
            · exact Or.inl hl
            · exact Or.inr (by rw [houtIds]; exact List.mem_append_left _ hr)
          · intro d hd
            rw [houtIds] at hd
            rcases List.mem_append.mp hd with hm | hm
            · exact inv.edgesEmitted d hm
            · rw [List.mem_singleton] at hm
              subst hm
              exact hEnone
          · intro c hc d hd
            have := inv.readyDeps c hc d hd
            rw [houtIds]
            exact List.mem_append_left _ this
  | none =>
      have hidout : id2 ∈ s.out.map Task.id := by
        rcases inv.byIdCover id2 hidts with hs | ho
        · rw [(aremove_none id2 s.byId).mp hb] at hs
          cases hs
        · exact ho
      cases he : aremove id2 s.edges with
      | some prE =>
          exfalso
          have h1 := inv.edgesEmitted id2 hidout
          rw [(aremove_none id2 s.edges).mpr h1] at he
          cases he
      | none =>
          exact ⟨⟨inv.readyTasks, inv.indegKeys, inv.indegBound, inv.edgesSub,
            inv.edgesSubL, inv.edgesEmitted, inv.byIdCover, inv.byIdDisj,
            inv.byIdSub, inv.outNodup, inv.outMem, inv.readyDeps, inv.permInv⟩,
            Or.inl rfl⟩

/-- `emitOk seen out`: every task of `out` has all dependencies among
`seen` plus the ids of the earlier tasks of `out`. -/
def emitOk (seen : List String) : List Task → Prop
  | [] => True
  | t :: rest => (∀ d ∈ dependsOn t, d ∈ seen) ∧ emitOk (seen ++ [t.id]) rest

theorem emitOk_append (seen : List String) (xs ys : List Task) :
    emitOk seen (xs ++ ys) ↔ emitOk seen xs ∧ emitOk (seen ++ xs.map Task.id) ys := by
  induction xs generalizing seen with
  | nil => simp [emitOk]
  | cons t rest ih =>
      show (∀ d ∈ dependsOn t, d ∈ seen) ∧ emitOk (seen ++ [t.id]) (rest ++ ys) ↔ _
      rw [ih (seen ++ [t.id])]
      have hs : seen ++ [t.id] ++ rest.map Task.id = seen ++ (t :: rest).map Task.id := by
        rw [List.append_assoc]
        rfl
      constructor
      · rintro ⟨h1, h2, h3⟩
        exact ⟨⟨h1, h2⟩, by rwa [hs] at h3⟩
      · rintro ⟨⟨h1, h2⟩, h3⟩
        exact ⟨h1, h2, by rwa [hs]⟩

theorem mem_of_getLast (l : List α) (a : α) (h : l.getLast? = some a) : a ∈ l := by
  induction l using List.reverseRecOn with
  | nil => cases h
  | append_singleton xs x _ =>
      rw [List.getLast?_concat] at h
      rw [Option.some.inj h]
      exact List.mem_append_right _ (by simp)

theorem getLast_decomp (l : List α) (a : α) (h : l.getLast? = some a) :
    l = l.dropLast ++ [a] := by
  induction l using List.reverseRecOn with
  | nil => cases h
  | append_singleton xs x _ =>
      rw [List.getLast?_concat] at h
      rw [Option.some.inj h, List.dropLast_concat]

/-- The whole Kahn loop preserves the invariant and the deps-before-use
property of the emitted prefix. -/
theorem kahnLoop_good (ts : List Task) (hnd : (ts.map Task.id).Nodup) :
    ∀ (fuel : Nat) (s : KahnState), KahnInv ts s → emitOk [] s.out →
      KahnInv ts (kahnLoop fuel s) ∧ emitOk [] (kahnLoop fuel s).out := by
  intro fuel
  induction fuel with
  | zero => intro s h1 h2; exact ⟨h1, h2⟩
  | succ n ih =>
      intro s h1 h2
      have hunf : kahnLoop (n + 1) s = match s.ready.getLast? with
          | none => s
          | some id => kahnLoop n (kahnStep { s with ready := s.ready.dropLast } id) := rfl
      rw [hunf]
      cases hr : s.ready.getLast? with
      | none => exact ⟨h1, h2⟩
      | some id2 =>
          have hmem : id2 ∈ s.ready := mem_of_getLast _ _ hr
          have hsub : ∀ c ∈ s.ready.dropLast, c ∈ s.ready := fun c hc =>
            (List.dropLast_sublist s.ready).subset hc
          have inv2 : KahnInv ts { s with ready := s.ready.dropLast } :=
            ⟨fun c hc => h1.readyTasks c (hsub c hc), h1.indegKeys, h1.indegBound,
             h1.edgesSub, h1.edgesSubL, h1.edgesEmitted, h1.byIdCover, h1.byIdDisj,
             h1.byIdSub, h1.outNodup, h1.outMem,
             fun c hc => h1.readyDeps c (hsub c hc), h1.permInv⟩
          obtain ⟨inv3, hext⟩ := kahnStep_inv ts hnd { s with ready := s.ready.dropLast }
            inv2 id2 (h1.readyTasks id2 hmem) (h1.readyDeps id2 hmem)
          have h2b : emitOk [] (kahnStep { s with ready := s.ready.dropLast } id2).out := by
            rcases hext with heq | ⟨t, heq, _, _, hdeps⟩
            · rw [heq]; exact h2
            · rw [heq]
              rw [emitOk_append]
              exact ⟨h2, fun d hd => List.mem_append_right _ (hdeps d hd), trivial⟩
          exact ih _ inv3 h2b

/-- The initial state of the Kahn phase satisfies the invariant. -/
theorem kahnInit_inv (ts : List Task) (hnd : (ts.map Task.id).Nodup) :
    KahnInv ts
      { byId := ts.map fun t => (t.id, t),
        indeg := (buildGraph (ts.map fun t => (t.id, t))).1,
        edges := (buildGraph (ts.map fun t => (t.id, t))).2,
        ready := sortIds ((((buildGraph (ts.map fun t => (t.id, t))).1.filter
          (fun kv => kv.2 = 0)).map (fun kv => kv.1))),
        out := [] } := by
  have hkeys := buildGraph_indeg_keys ts hnd
  have hindnd : ((buildGraph (ts.map fun t => (t.id, t))).1.map Prod.fst).Nodup := by
    rw [hkeys]; exact hnd
  have hready : ∀ c ∈ sortIds ((((buildGraph (ts.map fun t => (t.id, t))).1.filter
      (fun kv => kv.2 = 0)).map (fun kv => kv.1))),
      c ∈ ts.map Task.id ∧ depsOfId ts c = [] := by
    intro c hc
    rw [mem_sortIds] at hc
    rw [List.mem_map] at hc
    obtain ⟨kv, hkv, hfst⟩ := hc
    have hkv2 := List.of_mem_filter hkv
    have hkvm := List.mem_of_mem_filter hkv
    have hz : kv.2 = 0 := by simpa using hkv2
    have hlk : alookup kv.1 (buildGraph (ts.map fun t => (t.id, t))).1 = some kv.2 :=
      alookup_of_mem_nodup kv.1 _ kv.2 hindnd (by rw [Prod.mk.eta]; exact hkvm)
    have hmemid : kv.1 ∈ ts.map Task.id := by
      rw [← hkeys]
      exact List.mem_map.mpr ⟨kv, hkvm, rfl⟩
    have hlen : (depsOfId ts kv.1).length = 0 := by
      have hl2 := buildGraph_indeg_lookup ts hnd kv.1
      rw [hlk] at hl2
      unfold depsOfId
      cases hb : alookup kv.1 (ts.map fun t => (t.id, t)) with
      | none => simp
      | some t =>
          rw [hb] at hl2
          have := Option.some.inj hl2
          simp [← this, hz]
    subst hfst
    exact ⟨hmemid, List.length_eq_zero.mp hlen⟩
  refine ⟨fun c hc => (hready c hc).1, ?_, ?_, fun d => Or.inl rfl,
    List.Sublist.refl _, ?_, ?_, ?_, List.Sublist.refl _, List.nodup_nil, ?_, ?_, ?_⟩
  · intro c
    rw [alookup_isSome_iff_mem, hkeys]
  · intro c n h
    have hl2 := buildGraph_indeg_lookup ts hnd c
    rw [h] at hl2
    unfold unem depsOfId
    cases hb : alookup c (ts.map fun t => (t.id, t)) with
    | none => simp [List.length_nil]
    | some t =>
        rw [hb] at hl2
        have hn := Option.some.inj hl2
        calc ((dependsOn t).filter fun d => ¬ d ∈ ([] : List Task).map Task.id).length
            ≤ (dependsOn t).length := List.length_filter_le _ _
          _ = n := hn.symm
  · intro d hd
    simp at hd
  · intro c hc
    refine Or.inl ?_
    rw [alookup_isSome_iff_mem, byId0_keys]
    exact hc
  · intro c _
    simp [List.map_nil, List.not_mem_nil]
  · intro t ht
    simp at ht
  · intro c hc d hd
    rw [(hready c hc).2] at hd
    cases hd
  · simp [List.map_nil]

/-- The final state of the Kahn phase satisfies the invariant, and the
emitted prefix uses each dependency only after it is emitted. -/
theorem kahnFinal_good (ts : List Task) (hnd : (ts.map Task.id).Nodup) :
    KahnInv ts (kahnFinal ts) ∧ emitOk [] (kahnEmitted ts) := by
  unfold kahnFinal kahnEmitted kahnFinal
  exact kahnLoop_good ts hnd (kahnFuel ts) _ (kahnInit_inv ts hnd) trivial

/-- Index of the first occurrence of an id in a list (length if absent). -/
def idxOf (a : String) : List String → Nat
  | [] => 0
  | x :: xs => if x = a then 0 else idxOf a xs + 1

theorem idxOf_append_lt (a : String) (p s : List String) (h : a ∈ p) :
    idxOf a (p ++ s) < p.length := by
  induction p with
  | nil => cases h
  | cons x xs ih =>
      by_cases hx : x = a
      · show (if x = a then 0 else idxOf a (xs ++ s) + 1) < xs.length + 1
        rw [if_pos hx]
        exact Nat.succ_pos _
      · have ha : a ∈ xs := by
          rcases List.mem_cons.mp h with h1 | h1
          · exact absurd h1.symm hx
          · exact h1
        show (if x = a then 0 else idxOf a (xs ++ s) + 1) < xs.length + 1
        rw [if_neg hx]
        exact Nat.succ_lt_succ (ih ha)

theorem idxOf_append_not_mem (a : String) (p s : List String) (h : ¬ a ∈ p) :
    idxOf a (p ++ s) = p.length + idxOf a s := by
  induction p with
  | nil => rw [List.nil_append, List.length_nil, Nat.zero_add]
  | cons x xs ih =>
      have hx : ¬ x = a := fun he => h (by rw [he]; exact List.mem_cons_self _ _)
      have hxs : ¬ a ∈ xs := fun hm => h (List.mem_cons_of_mem _ hm)
      show (if x = a then 0 else idxOf a (xs ++ s) + 1) = xs.length + 1 + idxOf a s
      rw [if_neg hx, ih hxs]
      omega

/-- C1 (corrected): for a dependency edge a → b (task `b` lists `a` in its
payload `depends_on`), PROVIDED `b` is among the tasks actually emitted by
the Kahn phase, the reconciled order places `a` strictly before `b`.  The
unconditional claim is false: a task blocked by a nonexistent dependency id
lands in the cycle residue even though no dependency cycle exists, and the
residue ignores edge order (see the counterexample). -/
theorem topo_respects_edge (ts : List Task) (hnd : (ts.map Task.id).Nodup)
    (b : Task) (a : String) (hbts : b ∈ ts) (hab : a ∈ dependsOn b)
    (hats : a ∈ ts.map Task.id) (hemit : b ∈ kahnEmitted ts) :
    idxOf a ((topo_order_with_hint ts).map Task.id)
      < idxOf b.id ((topo_order_with_hint ts).map Task.id) := by
  obtain ⟨inv, hok⟩ := kahnFinal_good ts hnd
  obtain ⟨u, v, hout⟩ := List.append_of_mem hemit
  have hsplit := (emitOk_append [] u (b :: v)).mp (by rw [← hout]; exact hok)
  obtain ⟨hdepb, _⟩ := hsplit.2
  have hadeps : a ∈ u.map Task.id := by
    have := hdepb a hab
    simpa using this
  have hids : (topo_order_with_hint ts).map Task.id
      = u.map Task.id ++ (b.id :: (v.map Task.id ++ (kahnResidue ts).map Task.id)) := by
    unfold topo_order_with_hint
    rw [hout]
    rw [List.map_append, List.map_append, List.map_cons, List.append_assoc]
    rfl
  have hbnotu : ¬ b.id ∈ u.map Task.id := by
    have hnodup : ((kahnEmitted ts).map Task.id).Nodup := inv.outNodup
    rw [hout, List.map_append, List.map_cons] at hnodup
    rw [List.nodup_append] at hnodup
    intro hmem
    exact hnodup.2.2 hmem (List.mem_cons_self _ _)
  rw [hids]
  have h1 := idxOf_append_lt a (u.map Task.id)
    (b.id :: (v.map Task.id ++ (kahnResidue ts).map Task.id)) hadeps
  have h2 := idxOf_append_not_mem b.id (u.map Task.id)
    (b.id :: (v.map Task.id ++ (kahnResidue ts).map Task.id)) hbnotu
  have h3 : idxOf b.id (b.id :: (v.map Task.id ++ (kahnResidue ts).map Task.id)) = 0 := by
    show (if b.id = b.id then 0
      else idxOf b.id (v.map Task.id ++ (kahnResidue ts).map Task.id) + 1) = 0
    rw [if_pos rfl]
  omega

/-- C1 counterexample: in [b with depends_on [a], a with depends_on [z]]
there is an edge a → b and no dependency cycle, yet the reconciled order is
[b, a]: `a` is not placed before `b`, because `a` waits on the nonexistent
id `z`, so both tasks land in the cycle residue in insertion order. -/
theorem topo_edge_counterexample :
    "a" ∈ dependsOn (taskDeps "b" ["a"])
    ∧ (topo_order_with_hint [taskDeps "b" ["a"], taskDeps "a" ["z"]]).map Task.id
        = ["b", "a"]
    ∧ ¬ idxOf "a"
          ((topo_order_with_hint [taskDeps "b" ["a"], taskDeps "a" ["z"]]).map Task.id)
        < idxOf "b"
          ((topo_order_with_hint [taskDeps "b" ["a"], taskDeps "a" ["z"]]).map Task.id) := by
  exact ⟨by decide, rfl, by decide⟩

/-- Witness for the corrected C1 theorem at the concrete playbook
[b with depends_on [a], a]. -/
theorem topo_respects_edge_witness :
    idxOf "a" ((topo_order_with_hint [taskDeps "b" ["a"], plainTask "a"]).map Task.id)
      < idxOf "b" ((topo_order_with_hint [taskDeps "b" ["a"], plainTask "a"]).map Task.id) := by
  have hemit : taskDeps "b" ["a"] ∈ kahnEmitted [taskDeps "b" ["a"], plainTask "a"] := by
    have h : kahnEmitted [taskDeps "b" ["a"], plainTask "a"]
        = [plainTask "a", taskDeps "b" ["a"]] := rfl
    rw [h]
    exact List.mem_cons_of_mem _ (List.mem_cons_self _ _)
  exact topo_respects_edge [taskDeps "b" ["a"], plainTask "a"] (by decide)
    (taskDeps "b" ["a"]) "a" (List.mem_cons_self _ _) (by decide) (by decide) hemit

theorem getLast_none_nil (l : List α) (h : l.getLast? = none) : l = [] := by
  induction l using List.reverseRecOn with
  | nil => rfl
  | append_singleton xs x _ =>
      rw [List.getLast?_concat] at h
      cases h

/-- The reconciled order is a permutation of the playbook's tasks. -/
theorem topo_perm (ts : List Task) (hnd : (ts.map Task.id).Nodup) :
    (topo_order_with_hint ts).Perm ts := by
  have hperm := (kahnFinal_good ts hnd).1.permInv
  have h2 := hperm.map Prod.snd
  rw [List.map_append, List.map_map, List.map_map] at h2
  have e1 : (kahnFinal ts).out.map (Prod.snd ∘ fun t => (t.id, t)) = (kahnFinal ts).out :=
    List.map_id _
  have e3 : ts.map (Prod.snd ∘ fun t => (t.id, t)) = ts := List.map_id _
  rw [e1, e3] at h2
  exact h2

/-- With no dependencies anywhere, the graph-building fold adds no edges. -/
theorem buildGraph_fold_nodeps (l : List (String × Task)) :
    ∀ (acc : List (String × Nat) × List (String × List String)),
      (∀ p ∈ l, dependsOn p.2 = []) →
      (l.foldl
        (fun acc p =>
          let indeg := aensure p.1 0 acc.1
          (dependsOn p.2).foldl
            (fun acc2 d => (abump p.1 acc2.1, apush d p.1 acc2.2))
            (indeg, acc.2))
        acc).2 = acc.2 := by
  induction l with
  | nil => intro acc _; rfl
  | cons p rest ih =>
      intro acc h
      rw [List.foldl_cons]
      dsimp only
      have hd : dependsOn p.2 = [] := h p (List.mem_cons_self _ _)
      rw [hd, List.foldl_nil]
      exact ih _ (fun q hq => h q (List.mem_cons_of_mem _ hq))

theorem buildGraph_edges_nil (ts : List Task) (h : ∀ t ∈ ts, dependsOn t = []) :
    (buildGraph (ts.map fun t => (t.id, t))).2 = [] := by
  have hin := buildGraph_fold_nodeps (ts.map fun t => (t.id, t)) ([], [])
    (by
      intro p hp
      rw [List.mem_map] at hp
      obtain ⟨t, ht, heq⟩ := hp
      rw [← heq]
      exact h t ht)
  unfold buildGraph
  exact hin

/-- With no edges, the Kahn loop just pops `ready` from the back: the
output is extended by the ready ids in reverse and `by_id` shrinks by one
entry per pop. -/
theorem kahnLoop_noedges :
    ∀ (fuel : Nat) (s : KahnState),
      s.edges = [] →
      (∀ p ∈ s.byId, p.2.id = p.1) →
      (s.byId.map Prod.fst).Nodup →
      s.ready.Nodup →
      (∀ c ∈ s.ready, (alookup c s.byId).isSome) →
      s.ready.length ≤ fuel →
      (kahnLoop fuel s).out.map Task.id = s.out.map Task.id ++ s.ready.reverse
      ∧ (kahnLoop fuel s).byId.length + s.ready.length = s.byId.length := by
  intro fuel
  induction fuel with
  | zero =>
      intro s _ _ _ _ _ hlen
      have hnil : s.ready = [] := List.length_eq_zero.mp (Nat.le_zero.mp hlen)
      show s.out.map Task.id = s.out.map Task.id ++ s.ready.reverse
        ∧ s.byId.length + s.ready.length = s.byId.length
      rw [hnil, List.reverse_nil, List.append_nil, List.length_nil]
      exact ⟨rfl, rfl⟩
  | succ n ih =>
      intro s he hwf hbnd hrnd hrl hlen
      have hunf : kahnLoop (n + 1) s = match s.ready.getLast? with
          | none => s
          | some id => kahnLoop n (kahnStep { s with ready := s.ready.dropLast } id) := rfl
      rw [hunf]
      cases hr : s.ready.getLast? with
      | none =>
          have hnil : s.ready = [] := getLast_none_nil _ hr
          show s.out.map Task.id = s.out.map Task.id ++ s.ready.reverse
            ∧ s.byId.length + s.ready.length = s.byId.length
          rw [hnil, List.reverse_nil, List.append_nil, List.length_nil]
          exact ⟨rfl, rfl⟩
      | some id2 =>
          have hdec : s.ready = s.ready.dropLast ++ [id2] := getLast_decomp _ _ hr
          have hmem : id2 ∈ s.ready := mem_of_getLast _ _ hr
          have hlk : (alookup id2 s.byId).isSome := hrl id2 hmem
          obtain ⟨t, rest, hrem⟩ : ∃ t rest, aremove id2 s.byId = some (t, rest) := by
            cases hrm : aremove id2 s.byId with
            | none =>
                rw [(aremove_none _ _).mp hrm] at hlk
                cases hlk
            | some pr =>
                obtain ⟨t0, r0⟩ := pr
                exact ⟨t0, r0, rfl⟩
          obtain ⟨hbl, hbsub, hbother⟩ := aremove_some _ _ _ _ hrem
          have htid : t.id = id2 := hwf (id2, t) (alookup_some_mem _ _ _ hbl)
          have hstep : kahnStep { s with ready := s.ready.dropLast } id2
              = { byId := rest, indeg := s.indeg, edges := s.edges,
                  ready := s.ready.dropLast, out := s.out ++ [t] } := by
            unfold kahnStep
            dsimp only
            rw [hrem, he]
            rfl
          have hrde : ¬ id2 ∈ s.ready.dropLast := by
            have h2 : (s.ready.dropLast ++ [id2]).Nodup := by rw [← hdec]; exact hrnd
            rw [List.nodup_append] at h2
            intro hm
            exact h2.2.2 hm (List.mem_cons_self _ _)
          have hlen2 : s.ready.length = s.ready.dropLast.length + 1 := by
            have hcl := congrArg List.length hdec
            rwa [List.length_append, List.length_singleton] at hcl
          obtain ⟨ho, hl⟩ := ih
            { byId := rest, indeg := s.indeg, edges := s.edges,
              ready := s.ready.dropLast, out := s.out ++ [t] }
            he
            (fun p hp => hwf p (hbsub.subset hp))
            (List.Nodup.sublist (hbsub.map Prod.fst) hbnd)
            (hrnd.sublist (List.dropLast_sublist s.ready))
            (by
              intro c hc
              have hcm : c ∈ s.ready := (List.dropLast_sublist s.ready).subset hc
              have hcne : c ≠ id2 := fun heq => hrde (heq ▸ hc)
              rw [hbother c hcne]
              exact hrl c hcm)
            (by
              dsimp only
              omega)
          dsimp only at ho hl
          show (kahnLoop n (kahnStep { s with ready := s.ready.dropLast } id2)).out.map Task.id
              = s.out.map Task.id ++ s.ready.reverse
            ∧ (kahnLoop n (kahnStep { s with ready := s.ready.dropLast } id2)).byId.length
                + s.ready.length = s.byId.length
          rw [hstep]
          have hrev : s.ready.reverse = id2 :: s.ready.dropLast.reverse := by
            conv_lhs => rw [hdec]
            rw [List.reverse_append, List.reverse_singleton, List.singleton_append]
          constructor
          · rw [ho, List.map_append, hrev, List.map_singleton, htid, List.append_assoc]
            rfl
          · have hrl2 := aremove_length id2 s.byId t rest hrem
            omega

/-- For a playbook with no dependencies at all, every task is ready at
once and the loop emits the ids in DESCENDING lexical order — the reverse
of the ascending sort. -/
theorem topo_nodeps (ts : List Task) (hnd : (ts.map Task.id).Nodup)
    (h : ∀ t ∈ ts, dependsOn t = []) :
    (topo_order_with_hint ts).map Task.id = (sortIds (ts.map Task.id)).reverse := by
  have hkeys := buildGraph_indeg_keys ts hnd
  have hindnd : ((buildGraph (ts.map fun t => (t.id, t))).1.map Prod.fst).Nodup := by
    rw [hkeys]
    exact hnd
  have hedges := buildGraph_edges_nil ts h
  have hzero : ∀ kv ∈ (buildGraph (ts.map fun t => (t.id, t))).1, kv.2 = 0 := by
    intro kv hkv
    have hlk := alookup_of_mem_nodup kv.1 _ kv.2 hindnd (by rw [Prod.mk.eta]; exact hkv)
    have hl2 := buildGraph_indeg_lookup ts hnd kv.1
    rw [hlk] at hl2
    cases hb : alookup kv.1 (ts.map fun t => (t.id, t)) with
    | none =>
        rw [hb] at hl2
        cases hl2
    | some t =>
        rw [hb] at hl2
        have ht := pair_mem_byId0 ts kv.1 t (alookup_some_mem _ _ _ hb)
        have hdt : dependsOn t = [] := h t ht.1
        have hv := Option.some.inj hl2
        rw [hdt] at hv
        simpa using hv
  have hfilter : (buildGraph (ts.map fun t => (t.id, t))).1.filter (fun kv => kv.2 = 0)
      = (buildGraph (ts.map fun t => (t.id, t))).1 := by
    apply List.filter_eq_self.mpr
    intro kv hkv
    simpa using hzero kv hkv
  have hready : sortIds ((((buildGraph (ts.map fun t => (t.id, t))).1.filter
      (fun kv => kv.2 = 0)).map (fun kv => kv.1))) = sortIds (ts.map Task.id) := by
    rw [hfilter]
    exact congrArg sortIds hkeys
  have hrlen : (sortIds (ts.map Task.id)).length = ts.length := by
    unfold sortIds
    rw [(List.perm_insertionSort _ _).length_eq, List.length_map]
  obtain ⟨ho, hl⟩ := kahnLoop_noedges (kahnFuel ts)
    { byId := ts.map fun t => (t.id, t),
      indeg := (buildGraph (ts.map fun t => (t.id, t))).1,
      edges := (buildGraph (ts.map fun t => (t.id, t))).2,
      ready := sortIds ((((buildGraph (ts.map fun t => (t.id, t))).1.filter
        (fun kv => kv.2 = 0)).map (fun kv => kv.1))),
      out := [] }
    hedges
    (by
      intro p hp
      rw [List.mem_map] at hp
      obtain ⟨t, _, heq⟩ := hp
      rw [← heq])
    (by rw [byId0_keys]; exact hnd)
    (by
      rw [hready]
      exact ((List.perm_insertionSort _ _).nodup_iff).mpr hnd)
    (by
      intro c hc
      rw [hready, mem_sortIds] at hc
      rw [alookup_isSome_iff_mem, byId0_keys]
      exact hc)
    (by
      rw [hready, hrlen]
      unfold kahnFuel
      omega)
  dsimp only at ho hl
  have hfin : kahnFinal ts = kahnLoop (kahnFuel ts)
      { byId := ts.map fun t => (t.id, t),
        indeg := (buildGraph (ts.map fun t => (t.id, t))).1,
        edges := (buildGraph (ts.map fun t => (t.id, t))).2,
        ready := sortIds ((((buildGraph (ts.map fun t => (t.id, t))).1.filter
          (fun kv => kv.2 = 0)).map (fun kv => kv.1))),
        out := [] } := rfl
  have hl3 : (sortIds ((((buildGraph (ts.map fun t => (t.id, t))).1.filter
      (fun kv => kv.2 = 0)).map (fun kv => kv.1)))).length = ts.length := by
    rw [hready]
    exact hrlen
  have hl4 : ((ts.map fun t => (t.id, t)).length) = ts.length := List.length_map _ _
  have hbnil : (kahnFinal ts).byId = [] := by
    rw [hfin]
    apply List.length_eq_zero.mp
    omega
  unfold topo_order_with_hint kahnEmitted kahnResidue
  rw [List.map_append, hbnil, List.map_nil, List.map_nil, List.append_nil, hfin, ho,
    List.map_nil, List.nil_append, hready]

/-- C3 (corrected): the reconciled order is the Kahn-emitted prefix (every
task's dependencies emitted strictly before it) followed by the cycle
residue in the model's insertion order, and is a permutation of the
playbook.  But ties among simultaneously-ready tasks are broken in
DESCENDING lexical id order (`ready.sort()` followed by `Vec::pop`, which
takes the greatest), not ascending, and the optimiser-suggested index plays
no role in the tie-break: a playbook without dependencies comes out as the
reversed ascending sort of its ids. -/
theorem topo_order_characterisation (ts : List Task) (hnd : (ts.map Task.id).Nodup) :
    (topo_order_with_hint ts).Perm ts
    ∧ topo_order_with_hint ts = kahnEmitted ts ++ kahnResidue ts
    ∧ emitOk [] (kahnEmitted ts)
    ∧ ((∀ t ∈ ts, dependsOn t = []) →
        (topo_order_with_hint ts).map Task.id = (sortIds (ts.map Task.id)).reverse) :=
  ⟨topo_perm ts hnd, rfl, (kahnFinal_good ts hnd).2, topo_nodeps ts hnd⟩

/-- C3 counterexample: for two independent tasks a, b both the claimed
ascending lexical tie-break and the claimed suggested-index tie-break (the
playbook order being [a, b]) predict [a, b], but the loop pops the
lexically greatest ready id first and yields [b, a]. -/
theorem topo_tiebreak_counterexample :
    (topo_order_with_hint [plainTask "a", plainTask "b"]).map Task.id = ["b", "a"]
    ∧ (topo_order_with_hint [plainTask "a", plainTask "b"]).map Task.id ≠ ["a", "b"] :=
  ⟨rfl, by decide⟩

/-- Witness for the corrected C3 theorem at a concrete two-task playbook. -/
theorem topo_order_characterisation_witness :
    (topo_order_with_hint [plainTask "x", plainTask "y"]).Perm [plainTask "x", plainTask "y"]
    ∧ topo_order_with_hint [plainTask "x", plainTask "y"]
        = kahnEmitted [plainTask "x", plainTask "y"]
          ++ kahnResidue [plainTask "x", plainTask "y"]
    ∧ emitOk [] (kahnEmitted [plainTask "x", plainTask "y"])
    ∧ ((∀ t ∈ [plainTask "x", plainTask "y"], dependsOn t = []) →
        (topo_order_with_hint [plainTask "x", plainTask "y"]).map Task.id
          = (sortIds ([plainTask "x", plainTask "y"].map Task.id)).reverse) :=
  topo_order_characterisation [plainTask "x", plainTask "y"] (by decide)

end Ocodex
